import Mathlib

/-!
Shallow embedding of the chunked gather (take) engine of
`crates/polars-ops/src/chunked_array/gather/chunked.rs`, together with
theorems settling the specification claims about it.

Machine values are modelled with `Nat` and `Int`, chunked arrays as lists
of chunks, shared byte buffers as records carrying an identity tag and
their bytes, and panicking code returns `Option`.  Collaborator code that
lives outside the source fragment (the `ChunkId` codec, the sortedness
merge helper, the default sortedness of a freshly constructed array) is
modelled from the specification and marked as such on its doc comment.
-/

set_option autoImplicit false

/-- Sortedness metadata flag, mirroring `polars_core::series::IsSorted`. -/
inductive IsSorted where
  | Ascending : IsSorted
  | Descending : IsSorted
  | Not : IsSorted
deriving DecidableEq, Repr

/-- Modelled from the spec (section 4.1): the `ChunkId` address codec lives
in `polars-core`, outside the source fragment.  An address is either the
null sentinel or a decoded pair of a chunk index and a within-chunk index;
the bit packing is irrelevant to the gather engine, which only consumes
`is_null` and `extract`.  Extracting the sentinel is never observable on
the embedded paths (upstream it is undefined behaviour), so `extract`
maps it to `(0, 0)` arbitrarily. -/
inductive ChunkId where
  | nullId : ChunkId
  | pos : Nat → Nat → ChunkId
deriving DecidableEq, Repr

/-- Embeds `ChunkId::is_null`. -/
def ChunkId.is_null : ChunkId → Bool
  | .nullId => true
  | .pos _ _ => false

/-- Embeds `ChunkId::extract`, yielding the decoded (chunk, offset) pair. -/
def ChunkId.extract : ChunkId → Nat × Nat
  | .nullId => (0, 0)
  | .pos c i => (c, i)

/-- Modelled from the spec (section 4.5): `_update_gather_sorted_flag` is
imported from `polars-core` and is not part of the source fragment.  First
argument is the sortedness flag of the source array, second the
caller-supplied hint for the address list.  Policy per the spec: a
Not-sorted hint or a Not-sorted source yields Not-sorted; the same
direction on both sides preserves the source flag.  The spec leaves the
opposite-direction case open, resolved by whatever convention the two
directions compose to; it is modelled here as composing the two
directions, which yields Descending in both mixed cases. -/
def updateGatherSortedFlag : IsSorted → IsSorted → IsSorted
  | _, .Not => .Not
  | .Not, _ => .Not
  | .Ascending, .Ascending => .Ascending
  | .Ascending, .Descending => .Descending
  | .Descending, .Ascending => .Descending
  | .Descending, .Descending => .Descending

/-- Fixed-width (numeric/boolean) chunked array: an ordered list of chunks,
each chunk a list of optional values (`none` is a null slot, mirroring the
validity bitmap), plus the sortedness flag.  Mirrors `ChunkedArray<T>` for
physical fixed-width types. -/
structure PrimCA (α : Type) where
  chunks : List (List (Option α))
  sortedFlag : IsSorted
deriving DecidableEq, Repr

/-- Embeds the `downcast_slices` collaborator used at line 256 of the
source: direct value slices exist exactly when no chunk carries a null, in
which case element access yields the plain values. -/
def PrimCA.downcast_slices {α : Type} [Inhabited α] (ca : PrimCA α) :
    Option (List (List α)) :=
  if ca.chunks.all (fun ch => ch.all Option.isSome) then
    some (ca.chunks.map (fun ch => ch.map (fun o => o.getD default)))
  else
    none

/-- Embeds `ChunkedArray::take_chunked_unchecked` (source lines 249-287):
for each address, index the chosen chunk at the decoded offset, through
either the slice fast branch (no nulls anywhere) or the general
optional-value branch; collect into a single output chunk and merge the
sortedness flag with the caller hint. -/
def takeChunkedUnchecked {α : Type} [Inhabited α] (ca : PrimCA α)
    (ids : List ChunkId) (sorted : IsSorted) : PrimCA α :=
  let vals : List (Option α) :=
    match ca.downcast_slices with
    | some targets =>
        ids.map (fun id =>
          let ci := id.extract
          some ((targets.getD ci.1 []).getD ci.2 default))
    | none =>
        ids.map (fun id =>
          let ci := id.extract
          (ca.chunks.getD ci.1 []).getD ci.2 none)
  { chunks := [vals], sortedFlag := updateGatherSortedFlag ca.sortedFlag sorted }

/-- Embeds `ChunkedArray::take_opt_chunked_unchecked` (source lines
290-326): as the non-null variant but a null-sentinel address emits a null
output element.  The function takes no sortedness hint and never calls
`set_sorted_flag`; the output keeps the default flag of a freshly
constructed array, which is Not-sorted (`with_chunk` collaborator,
modelled from the spec). -/
def takeOptChunkedUnchecked {α : Type} [Inhabited α] (ca : PrimCA α)
    (ids : List ChunkId) : PrimCA α :=
  let vals : List (Option α) :=
    match ca.downcast_slices with
    | some targets =>
        ids.map (fun id =>
          if id.is_null then none
          else
            let ci := id.extract
            some ((targets.getD ci.1 []).getD ci.2 default))
    | none =>
        ids.map (fun id =>
          if id.is_null then none
          else
            let ci := id.extract
            (ca.chunks.getD ci.1 []).getD ci.2 none)
  { chunks := [vals], sortedFlag := .Not }

/-- Flattened (rechunked-to-one-chunk) view of a chunk list. -/
def flatChunks {β : Type} (chunks : List (List β)) : List β := chunks.flatten

/-- Flattened view of the source array. -/
def PrimCA.flat {α : Type} (ca : PrimCA α) : List (Option α) :=
  flatChunks ca.chunks

/-- Per-chunk lengths of a chunk list. -/
def chunkLens {β : Type} (chunks : List (List β)) : List Nat :=
  chunks.map List.length

/-- Position in the flattened sequence denoted by a decoded address. -/
def flatIdx {β : Type} (chunks : List (List β)) (id : ChunkId) : Nat :=
  ((chunkLens chunks).take id.extract.1).sum + id.extract.2

/-- Validity of an address for a chunk list: not the null sentinel, chunk
index in range, within-chunk index in range. -/
def validAddr {β : Type} (chunks : List (List β)) : ChunkId → Bool
  | .nullId => false
  | .pos c i => decide (c < chunks.length) && decide (i < (chunks.getD c []).length)

/-- Helper: reading before the end of the left part of an append. -/
theorem getD_append_left {β : Type} (l1 l2 : List β) (i : Nat) (d : β)
    (h : i < l1.length) : (l1 ++ l2).getD i d = l1.getD i d := by
  simp [List.getD_eq_getElem?_getD, List.getElem?_append, h]

/-- Helper: reading past the left part of an append. -/
theorem getD_append_right {β : Type} (l1 l2 : List β) (i : Nat) (d : β)
    (h : l1.length ≤ i) :
    (l1 ++ l2).getD i d = l2.getD (i - l1.length) d := by
  simp [List.getD_eq_getElem?_getD, List.getElem?_append_right h]

/-- Helper: indexing a mapped list below its length applies the function
to the underlying element. -/
theorem getD_map_of_lt {β γ : Type} (f : β → γ) (l : List β) (i : Nat)
    (d : γ) (d' : β) (h : i < l.length) :
    (l.map f).getD i d = f (l.getD i d') := by
  simp [List.getD_eq_getElem?_getD, List.getElem?_map,
    List.getElem?_eq_getElem h, List.getElem?_eq_getElem (l := l.map f)
      (by simpa using h)]

/-- Central flattening lemma: indexing the flattened chunk list at the
flattened position of a valid (chunk, offset) address equals indexing the
chunk directly. -/
theorem getD_flatChunks {β : Type} (chunks : List (List β)) (c i : Nat)
    (d : β) (hc : c < chunks.length) (hi : i < (chunks.getD c []).length) :
    (flatChunks chunks).getD (((chunkLens chunks).take c).sum + i) d
      = (chunks.getD c []).getD i d := by
  induction chunks generalizing c with
  | nil => simp at hc
  | cons ch rest ih =>
    cases c with
    | zero =>
      simp only [chunkLens, List.map_cons, List.take_zero, List.sum_nil,
        Nat.zero_add, flatChunks, List.flatten_cons]
      have hi' : i < ch.length := by simpa [List.getD] using hi
      rw [getD_append_left _ _ _ _ hi']
      simp [List.getD]
    | succ c =>
      have hc' : c < rest.length := by simpa using hc
      have hi' : i < (rest.getD c []).length := by simpa [List.getD] using hi
      simp only [chunkLens, List.map_cons, List.take_succ_cons,
        List.sum_cons, flatChunks, List.flatten_cons]
      have hlen : ch.length
          ≤ ch.length + (((List.map List.length rest).take c).sum + i) := by
        omega
      have harr : ch.length + ((List.map List.length rest).take c).sum + i
          = ch.length + (((List.map List.length rest).take c).sum + i) := by
        omega
      rw [harr, getD_append_right _ _ _ _ hlen]
      have hsub : ch.length + (((List.map List.length rest).take c).sum + i)
            - ch.length
          = ((List.map List.length rest).take c).sum + i := by omega
      rw [hsub]
      have := ih c hc' hi'
      simpa [flatChunks, chunkLens, List.getD] using this

/-- Helper: a valid non-null address read from the flattened sequence
equals the direct chunk read. -/
theorem flat_getD_of_valid {β : Type} (chunks : List (List β)) (id : ChunkId)
    (d : β) (h : validAddr chunks id = true) :
    (flatChunks chunks).getD (flatIdx chunks id) d
      = (chunks.getD id.extract.1 []).getD id.extract.2 d := by
  cases id with
  | nullId => simp [validAddr] at h
  | pos c i =>
    simp only [validAddr, Bool.and_eq_true, decide_eq_true_eq] at h
    exact getD_flatChunks chunks c i d h.1 h.2

/-- Helper: membership of an in-range `getD` read. -/
theorem getD_mem_of_lt {β : Type} (l : List β) (i : Nat) (d : β)
    (h : i < l.length) : l.getD i d ∈ l := by
  rw [List.getD_eq_getElem?_getD, List.getElem?_eq_getElem h]
  exact List.getElem_mem h

/-- Both branches of the primitive gather read the same cell: the slice
fast branch agrees with the general optional-value branch on every valid
address. -/
theorem takeChunkedUnchecked_chunks {α : Type} [Inhabited α] (ca : PrimCA α)
    (ids : List ChunkId) (sorted : IsSorted)
    (h : ids.all (validAddr ca.chunks) = true) :
    (takeChunkedUnchecked ca ids sorted).chunks
      = [ids.map (fun id =>
          (ca.chunks.getD id.extract.1 []).getD id.extract.2 none)] := by
  unfold takeChunkedUnchecked
  cases hds : ca.downcast_slices with
  | none => simp
  | some targets =>
    simp only []
    refine congrArg (fun x => [x]) ?_
    refine List.map_congr_left ?_
    intro id hid
    have hv := (List.all_eq_true.mp h) id hid
    cases id with
    | nullId => simp [validAddr] at hv
    | pos c i =>
      simp only [validAddr, Bool.and_eq_true, decide_eq_true_eq] at hv
      obtain ⟨hc, hi⟩ := hv
      unfold PrimCA.downcast_slices at hds
      by_cases hall : ca.chunks.all (fun ch => ch.all Option.isSome) = true
      · rw [if_pos hall] at hds
        have htg : targets = ca.chunks.map (fun ch => ch.map (fun o => o.getD default)) := by
          injection hds.symm
        subst htg
        have h1 : (ca.chunks.map (fun ch => ch.map (fun o => o.getD default))).getD c []
            = (ca.chunks.getD c []).map (fun o => o.getD default) := by
          exact getD_map_of_lt _ _ _ _ [] hc
        have h2 : ((ca.chunks.getD c []).map (fun o => o.getD default)).getD i default
            = ((ca.chunks.getD c []).getD i none).getD default := by
          exact getD_map_of_lt _ _ _ _ none hi
        have hmemch : ca.chunks.getD c [] ∈ ca.chunks := getD_mem_of_lt _ _ _ hc
        have hmemo : (ca.chunks.getD c []).getD i none ∈ ca.chunks.getD c [] :=
          getD_mem_of_lt _ _ _ hi
        have hsome : ((ca.chunks.getD c []).getD i none).isSome = true := by
          have hch := (List.all_eq_true.mp hall) _ hmemch
          exact (List.all_eq_true.mp hch) _ hmemo
        simp only [ChunkId.extract, h1, h2]
        cases ho : (ca.chunks.getD c []).getD i none with
        | none => rw [ho] at hsome; simp at hsome
        | some v => simp
      · rw [if_neg hall] at hds
        exact absurd hds (by simp)

/-- C1: for every source sequence and every address list free of null
sentinels (and valid for the source), `take_chunked_unchecked(source,
addresses, Not)` produces a sequence equal, element by element, to first
flattening the source to one chunk and then indexing it directly with the
decoded (chunk, offset) positions in order. -/
theorem c1_take_chunked_eq_flatten_index {α : Type} [Inhabited α]
    (ca : PrimCA α) (ids : List ChunkId)
    (h : ids.all (validAddr ca.chunks) = true) :
    (takeChunkedUnchecked ca ids .Not).chunks
      = [ids.map (fun id => ca.flat.getD (flatIdx ca.chunks id) none)] := by
  rw [takeChunkedUnchecked_chunks ca ids .Not h]
  refine congrArg (fun x => [x]) ?_
  refine (List.map_congr_left ?_).symm
  intro id hid
  have hv := (List.all_eq_true.mp h) id hid
  exact flat_getD_of_valid ca.chunks id none hv

/-- Concrete example source for witnesses: two chunks of integers, one
null slot, flagged Ascending. -/
def caEx : PrimCA Int :=
  { chunks := [[some 1, some 2], [none, some 4]], sortedFlag := .Ascending }

/-- Concrete address list for witnesses. -/
def idsEx : List ChunkId := [.pos 1 1, .pos 0 0, .pos 1 0]

/-- Witness for C1 at a concrete two-chunk source and address list. -/
theorem c1_take_chunked_eq_flatten_index_witness :
    (takeChunkedUnchecked caEx idsEx .Not).chunks
      = [idsEx.map (fun id => caEx.flat.getD (flatIdx caEx.chunks id) none)] :=
  c1_take_chunked_eq_flatten_index caEx idsEx (by decide)

/-- Series model for `prepare_series`: only the chunk layout matters.  The
`to_physical_repr` collaborator is external to the source fragment, so its
result is abstracted by the chunk layout `physChunkLens` carried in the
model (an arbitrary layout the conversion may produce). -/
structure SeriesL where
  logicalChunkLens : List Nat
  nested : Bool
  physChunkLens : List Nat
deriving DecidableEq, Repr

/-- Embeds `prepare_series` (source lines 96-109): nested dtypes are kept
borrowed (no conversion), otherwise the series is converted to its
physical representation; then the assertion compares the two chunk
counts, panicking on mismatch.  The panic is modelled as `none`; `some`
carries the layout the function proceeds with. -/
def prepare_series (s : SeriesL) : Option (List Nat) :=
  let phys := if s.nested then s.logicalChunkLens else s.physChunkLens
  if phys.length = s.logicalChunkLens.length then some phys else none

/-- Counterexample to C6: a conversion result with the same chunk count
but different per-chunk lengths passes the assertion, so the entry points
proceed even though the chunk layouts differ; the asserted equality covers
only the chunk count. -/
theorem c6_layout_assert_counterexample :
    prepare_series ⟨[2, 3], false, [3, 2]⟩ = some [3, 2]
      ∧ ([3, 2] : List Nat) ≠ [2, 3] := by
  constructor
  · rfl
  · decide

/-- C6 amended: both entry points run the source through `prepare_series`,
which asserts only that the physical and logical forms have the same chunk
count, panicking (fatal internal error) exactly when the counts differ;
per-chunk lengths are not compared, and nested dtypes skip the conversion
entirely (the physical form is the logical one). -/
theorem c6_layout_assert_amended (s : SeriesL) :
    (prepare_series s = none
        ↔ s.nested = false
          ∧ s.physChunkLens.length ≠ s.logicalChunkLens.length)
      ∧ (s.nested = false → s.physChunkLens.length = s.logicalChunkLens.length →
          prepare_series s = some s.physChunkLens)
      ∧ (s.nested = true → prepare_series s = some s.logicalChunkLens) := by
  unfold prepare_series
  refine ⟨?_, ?_, ?_⟩
  · cases hn : s.nested with
    | true => simp
    | false =>
      by_cases hl : s.physChunkLens.length = s.logicalChunkLens.length <;>
        simp [hl]
  · intro hn hl
    simp [hn, hl]
  · intro hn
    simp [hn]

/-- Witness for the amended C6: counts agree, the function proceeds with
the physical layout. -/
theorem c6_layout_assert_amended_witness :
    prepare_series ⟨[2, 3], false, [4, 5]⟩ = some [4, 5] :=
  (c6_layout_assert_amended ⟨[2, 3], false, [4, 5]⟩).2.1 rfl rfl

/-- Tagged/object series model: object values are abstracted as integers,
a chunk is a list of optional values (null-aware element access through
`get_object_chunked_unchecked`), plus the sortedness flag. -/
structure ObjSeries where
  chunks : List (List (Option Nat))
  sortedFlag : IsSorted
deriving DecidableEq, Repr

/-- Embeds `take_unchecked_object` (source lines 329-347): iterate the
addresses and append, through the registered builder, the referenced
object or a null.  The `_sorted` hint parameter is unused by the function
and the source flag is never consulted; `builder.to_series()` yields a
freshly built series, which carries the default Not-sorted flag (builder
collaborator modelled from the spec). -/
def take_unchecked_object (s : ObjSeries) (ids : List ChunkId)
    (_sorted : IsSorted) : ObjSeries :=
  { chunks := [ids.map (fun id =>
      let ci := id.extract
      (s.chunks.getD ci.1 []).getD ci.2 none)],
    sortedFlag := .Not }

/-- Counterexample to C5: on the tagged/object path with an Ascending
source and an Ascending hint (same direction), the claimed merge policy
requires the source flag to be preserved, but the code ignores the hint
and the source flag there and returns the default Not-sorted flag. -/
theorem c5_sorted_flag_object_counterexample :
    (take_unchecked_object ⟨[[some 1]], .Ascending⟩ [.pos 0 0]
        .Ascending).sortedFlag = .Not
      ∧ (take_unchecked_object ⟨[[some 1]], .Ascending⟩ [.pos 0 0]
          .Ascending).sortedFlag ≠ .Ascending := by
  constructor
  · rfl
  · decide

/-- C5 amended: on the fixed-width `ChunkedArray` gather path the output
flag follows the merge policy (a Not-sorted hint or a Not-sorted source
gives Not-sorted, equal directions preserve the source flag), but the
tagged/object path ignores both the hint and the source flag and always
returns the default Not-sorted flag. -/
theorem c5_sorted_flag_policy_amended :
    (∀ (ca : PrimCA Int) (ids : List ChunkId) (hint : IsSorted),
        ((hint = .Not ∨ ca.sortedFlag = .Not) →
          (takeChunkedUnchecked ca ids hint).sortedFlag = .Not)
        ∧ (hint = ca.sortedFlag →
            (takeChunkedUnchecked ca ids hint).sortedFlag = ca.sortedFlag))
      ∧ (∀ (s : ObjSeries) (ids : List ChunkId) (hint : IsSorted),
          (take_unchecked_object s ids hint).sortedFlag = .Not) := by
  constructor
  · intro ca ids hint
    constructor
    · rintro (rfl | hsrc)
      · show updateGatherSortedFlag ca.sortedFlag .Not = .Not
        cases ca.sortedFlag <;> rfl
      · show updateGatherSortedFlag ca.sortedFlag hint = .Not
        rw [hsrc]
        cases hint <;> rfl
    · intro he
      show updateGatherSortedFlag ca.sortedFlag hint = ca.sortedFlag
      rw [he]
      cases ca.sortedFlag <;> rfl
  · intro s ids hint
    rfl

/-- Witness for the amended C5: equal directions preserve the flag at a
concrete source, and that source flag is Ascending. -/
theorem c5_sorted_flag_policy_amended_witness :
    (takeChunkedUnchecked caEx [ChunkId.pos 0 0] .Ascending).sortedFlag
      = caEx.sortedFlag :=
  (c5_sorted_flag_policy_amended.1 caEx [ChunkId.pos 0 0] .Ascending).2 rfl

/-- View descriptor for one variable-length value: a length; for values at
most 12 bytes the bytes themselves inline; otherwise an index into the
buffer pool and a byte offset into that buffer (the 4-byte prefix is a
cache of the value bytes and is subsumed by `inlineData` being unused on
the long branch).  Mirrors `arrow::array::View`. -/
structure View where
  length : Nat
  inlineData : List Nat
  buffer_idx : Nat
  offset : Nat
deriving DecidableEq, Repr

/-- Embeds `View::default()`: the zeroed placeholder descriptor. -/
def viewDefault : View := ⟨0, [], 0, 0⟩

/-- Shared byte buffer: an identity tag modelling the data pointer, plus
the bytes.  Cloning a buffer shares the identity. -/
structure Buffer where
  id : Nat
  data : List Nat
deriving DecidableEq, Repr

/-- Default buffer used for out-of-range pool reads (undefined behaviour
upstream). -/
def bufferDefault : Buffer := ⟨0, []⟩

/-- Deduplication key of a buffer: identity (pointer) plus length, not
content (source line 379). -/
def bufKey (b : Buffer) : Nat × Nat := (b.id, b.data.length)

/-- Association list lookup, modelling the `PlHashMap` entry lookup.  Keys
in the modelled maps are unique, so first-match semantics is faithful. -/
def alookup (key : Nat × Nat) : List ((Nat × Nat) × Nat) → Option Nat
  | [] => none
  | kv :: rest => if kv.1 = key then some kv.2 else alookup key rest

/-- Embeds `update_view` (source lines 369-390): a view longer than 12
bytes has its referenced buffer looked up or inserted in the dedup map
(key = pointer + length) and its buffer index rewritten to the output pool
index; a view at or below 12 bytes is returned untouched.  The map is
modelled as an association list; insertion appends the fresh entry. -/
def update_view (view : View) (orig_buffers : List Buffer)
    (buffer_idxs : List ((Nat × Nat) × Nat)) (buffers : List Buffer) :
    View × List ((Nat × Nat) × Nat) × List Buffer :=
  if 12 < view.length then
    let orig_buffer := orig_buffers.getD view.buffer_idx bufferDefault
    match alookup (bufKey orig_buffer) buffer_idxs with
    | some o => ({ view with buffer_idx := o }, buffer_idxs, buffers)
    | none =>
        let buffer_idx := buffers.length
        ({ view with buffer_idx := buffer_idx },
          buffer_idxs ++ [(bufKey orig_buffer, buffer_idx)],
          buffers ++ [orig_buffer])
  else (view, buffer_idxs, buffers)

/-- BinView chunk (`BinaryViewArrayGeneric`): view descriptors, buffer
pool, optional validity bitmap. -/
structure BVChunk where
  views : List View
  buffers : List Buffer
  validity : Option (List Bool)
deriving DecidableEq, Repr

/-- Default (empty) chunk for out-of-range chunk reads. -/
def bvChunkDefault : BVChunk := ⟨[], [], none⟩

/-- Embeds `Array::has_nulls`: some false bit exists. -/
def BVChunk.has_nulls (ch : BVChunk) : Bool :=
  match ch.validity with
  | none => false
  | some v => v.contains false

/-- Embeds `is_null_unchecked`: the validity bit at `i` is false. -/
def BVChunk.is_null_unchecked (ch : BVChunk) (i : Nat) : Bool :=
  match ch.validity with
  | none => false
  | some v => !(v.getD i true)

/-- View-encoded (binary/string) chunked array. -/
structure BVCA where
  chunks : List BVChunk
  sortedFlag : IsSorted
deriving DecidableEq, Repr

/-- Embeds `ChunkedArray::has_nulls` over all chunks. -/
def BVCA.has_nulls (ca : BVCA) : Bool := ca.chunks.any BVChunk.has_nulls

/-- Modelled from the spec: `BinaryViewArrayGeneric::maybe_gc` belongs to
the arrow crate, outside the source fragment.  The post-condition of
section 4.3 states the produced chunk keeps exactly the buffers referenced
by emitted long descriptors, so the finalizer is modelled as the identity
on the built chunk. -/
def maybe_gc (ch : BVChunk) : BVChunk := ch

/-- State threaded through the multi-chunk gather loops: emitted views,
emitted validity bits, dedup map, output buffer pool.  In the loop
variants that build no validity bitmap the bit component is ghost state
(kept only so all loops share one shape) and is discarded by the caller,
which attaches no validity to the produced chunk. -/
abbrev GatherSt :=
  List View × List Bool × List ((Nat × Nat) × Nat) × List Buffer

/-- Generic body shared by the four multi-chunk gather loops: a null item
pushes the zeroed placeholder descriptor and a false bit (source lines
445-446, 514-515, 545-546, 568-569); a gathered item runs `update_view`
on the selected source view against the dedup state and pushes the
rewritten descriptor and a true bit (source lines 448-455, 465-470,
553-560, 573-580). -/
def genStep (itemOf : ChunkId → Option (View × List Buffer))
    (st : GatherSt) (id : ChunkId) : GatherSt :=
  match itemOf id with
  | none => (st.1 ++ [viewDefault], st.2.1 ++ [false], st.2.2.1, st.2.2.2)
  | some vb =>
      let r := update_view vb.1 vb.2 st.2.2.1 st.2.2.2
      (st.1 ++ [r.1], st.2.1 ++ [true], r.2.1, r.2.2)

/-- Item selector for the non-null-sentinel gather over a source with
nulls (source lines 440-456): decode the address, fetch the chunk, a null
source element yields a null item, otherwise the selected view and the
chunk's buffer pool. -/
def gatherItemTakeNulls (ca : BVCA) (id : ChunkId) :
    Option (View × List Buffer) :=
  let ci := id.extract
  let arr := ca.chunks.getD ci.1 bvChunkDefault
  if arr.is_null_unchecked ci.2 then none
  else some (arr.views.getD ci.2 viewDefault, arr.buffers)

/-- Item selector for the non-null-sentinel gather over a source without
nulls (source lines 460-471): every address yields its view. -/
def gatherItemTakeNoNulls (ca : BVCA) (id : ChunkId) :
    Option (View × List Buffer) :=
  let ci := id.extract
  let arr := ca.chunks.getD ci.1 bvChunkDefault
  some (arr.views.getD ci.2 viewDefault, arr.buffers)

/-- Item selector for the null-aware gather over a source with nulls
(source lines 541-563): a null-sentinel address yields a null item before
any chunk access, then as the non-null variant. -/
def gatherItemOptNulls (ca : BVCA) (id : ChunkId) :
    Option (View × List Buffer) :=
  if id.is_null then none else gatherItemTakeNulls ca id

/-- Item selector for the null-aware gather over a source without nulls
(source lines 565-582). -/
def gatherItemOptNoNulls (ca : BVCA) (id : ChunkId) :
    Option (View × List Buffer) :=
  if id.is_null then none else gatherItemTakeNoNulls ca id

/-- Multi-chunk branch of `take_unchecked_binview` (source lines 434-476)
as a standalone chunk builder, so that forcing the general path on a
single-chunk source can be stated: fresh dedup state, loop according to
null presence, validity attached only when the source has nulls. -/
def takeBinviewMulti (ca : BVCA) (ids : List ChunkId) : BVChunk :=
  if ca.has_nulls then
    let st := ids.foldl (genStep (gatherItemTakeNulls ca)) ([], [], [], [])
    ⟨st.1, st.2.2.2, some st.2.1⟩
  else
    let st := ids.foldl (genStep (gatherItemTakeNoNulls ca)) ([], [], [], [])
    ⟨st.1, st.2.2.2, none⟩

/-- Embeds `take_unchecked_binview` (source lines 392-490): with exactly
one source chunk, reuse its buffer pool by reference and copy the selected
views (or emit placeholder plus false bit for null source elements);
otherwise run the dedup loop.  Finally run the gc finalizer and merge the
sortedness flag with the caller hint. -/
def take_unchecked_binview (ca : BVCA) (ids : List ChunkId)
    (sorted : IsSorted) : BVCA :=
  if ca.chunks.length = 1 then
    if (ca.chunks.getD 0 bvChunkDefault).has_nulls then
      { chunks := [maybe_gc
          ⟨ids.map (fun id =>
              if (ca.chunks.getD 0 bvChunkDefault).is_null_unchecked
                  id.extract.2 then viewDefault
              else (ca.chunks.getD 0 bvChunkDefault).views.getD id.extract.2
                viewDefault),
            (ca.chunks.getD 0 bvChunkDefault).buffers,
            some (ids.map (fun id =>
              !((ca.chunks.getD 0 bvChunkDefault).is_null_unchecked
                id.extract.2)))⟩],
        sortedFlag := updateGatherSortedFlag ca.sortedFlag sorted }
    else
      { chunks := [maybe_gc
          ⟨ids.map (fun id =>
              (ca.chunks.getD 0 bvChunkDefault).views.getD id.extract.2
                viewDefault),
            (ca.chunks.getD 0 bvChunkDefault).buffers, none⟩],
        sortedFlag := updateGatherSortedFlag ca.sortedFlag sorted }
  else
    { chunks := [maybe_gc (takeBinviewMulti ca ids)],
      sortedFlag := updateGatherSortedFlag ca.sortedFlag sorted }

/-- Multi-chunk branch of `take_unchecked_binview_opt` (source lines
536-586) as a standalone chunk builder; the validity bitmap is built and
attached in both loop variants. -/
def takeBinviewOptMulti (ca : BVCA) (ids : List ChunkId) : BVChunk :=
  if ca.has_nulls then
    let st := ids.foldl (genStep (gatherItemOptNulls ca)) ([], [], [], [])
    ⟨st.1, st.2.2.2, some st.2.1⟩
  else
    let st := ids.foldl (genStep (gatherItemOptNoNulls ca)) ([], [], [], [])
    ⟨st.1, st.2.2.2, some st.2.1⟩

/-- Embeds `take_unchecked_binview_opt` (source lines 492-597): as the
non-null variant but null-sentinel addresses emit placeholder views with
false bits, a validity bitmap is always attached, and no sortedness flag
is set on the output (the freshly constructed array keeps the default
Not-sorted flag). -/
def take_unchecked_binview_opt (ca : BVCA) (ids : List ChunkId) : BVCA :=
  if ca.chunks.length = 1 then
    if (ca.chunks.getD 0 bvChunkDefault).has_nulls then
      { chunks := [maybe_gc
          ⟨ids.map (fun id =>
              if id.is_null
                  || (ca.chunks.getD 0 bvChunkDefault).is_null_unchecked
                    id.extract.2 then viewDefault
              else (ca.chunks.getD 0 bvChunkDefault).views.getD id.extract.2
                viewDefault),
            (ca.chunks.getD 0 bvChunkDefault).buffers,
            some (ids.map (fun id =>
              !(id.is_null
                || (ca.chunks.getD 0 bvChunkDefault).is_null_unchecked
                  id.extract.2)))⟩],
        sortedFlag := .Not }
    else
      { chunks := [maybe_gc
          ⟨ids.map (fun id =>
              if id.is_null then viewDefault
              else (ca.chunks.getD 0 bvChunkDefault).views.getD id.extract.2
                viewDefault),
            (ca.chunks.getD 0 bvChunkDefault).buffers,
            some (ids.map (fun id => !id.is_null))⟩],
        sortedFlag := .Not }
  else
    { chunks := [maybe_gc (takeBinviewOptMulti ca ids)], sortedFlag := .Not }

/-- Value denoted by a view against a buffer pool: inline bytes for short
views, the addressed buffer slice for long ones. -/
def bufVal (bs : List Buffer) (v : View) : List Nat :=
  if v.length ≤ 12 then v.inlineData
  else ((bs.getD v.buffer_idx bufferDefault).data.drop v.offset).take v.length

/-- Optional value of a chunk cell: none when the validity bit is false. -/
def BVChunk.cellVal (ch : BVChunk) (i : Nat) : Option (List Nat) :=
  if ch.is_null_unchecked i then none
  else some (bufVal ch.buffers (ch.views.getD i viewDefault))

/-- Observable content of a chunk: the list of its optional cell values. -/
def BVChunk.denote (ch : BVChunk) : List (Option (List Nat)) :=
  (List.range ch.views.length).map ch.cellVal

/-- Observable content of a view-encoded chunked array: concatenation of
the chunk denotations (the flattened sequence of optional values). -/
def BVCA.denote (ca : BVCA) : List (Option (List Nat)) :=
  (ca.chunks.map BVChunk.denote).flatten

/-- Naive gather of one address: read the decoded cell directly. -/
def naiveBV (ca : BVCA) (id : ChunkId) : Option (List Nat) :=
  (ca.chunks.getD id.extract.1 bvChunkDefault).cellVal id.extract.2

/-- Naive null-aware gather of one address. -/
def naiveOptBV (ca : BVCA) (id : ChunkId) : Option (List Nat) :=
  if id.is_null then none else naiveBV ca id

/-- Validity of an address for a view-encoded array. -/
def validBV (ca : BVCA) : ChunkId → Bool
  | .nullId => false
  | .pos c i =>
      decide (c < ca.chunks.length)
        && decide (i < (ca.chunks.getD c bvChunkDefault).views.length)

/-- Position of a decoded address in the flattened sequence of a
view-encoded array. -/
def flatIdxBV (ca : BVCA) (id : ChunkId) : Nat :=
  ((ca.chunks.map (fun ch => ch.views.length)).take id.extract.1).sum
    + id.extract.2

/-- Well-formedness of a chunk: every long view addresses a real pool
buffer. -/
def BVChunk.wf (ch : BVChunk) : Bool :=
  ch.views.all (fun v =>
    decide (v.length ≤ 12) || decide (v.buffer_idx < ch.buffers.length))

/-- Well-formedness of a view-encoded array. -/
def BVCA.wf (ca : BVCA) : Bool := ca.chunks.all BVChunk.wf

/-- All source buffers of an array, across chunks. -/
def BVCA.srcBuffers (ca : BVCA) : List Buffer :=
  (ca.chunks.map BVChunk.buffers).flatten

/-- Key injectivity on a buffer list: the (identity, length) key
determines the buffer.  Real memory guarantees this (equal data pointer
and length means the same bytes); the model states it as a hypothesis. -/
def keyInjOn (S : List Buffer) : Prop :=
  ∀ b1 ∈ S, ∀ b2 ∈ S, bufKey b1 = bufKey b2 → b1 = b2

/-- Enumeration of pool keys starting at index n: the dedup map of a pool
is exactly this enumeration. -/
def enumKeysFrom (n : Nat) : List Buffer → List ((Nat × Nat) × Nat)
  | [] => []
  | b :: rest => (bufKey b, n) :: enumKeysFrom (n + 1) rest

/-- Invariant of the dedup state: the map enumerates the pool keys, pool
keys are pairwise distinct, and every pool buffer comes from S. -/
def poolInv (m : List ((Nat × Nat) × Nat)) (bs S : List Buffer) : Prop :=
  m = enumKeysFrom 0 bs ∧ (bs.map bufKey).Nodup ∧ ∀ b ∈ bs, b ∈ S

/-- Invariant: every pool buffer is referenced by some emitted long
view. -/
def refdInv (vs : List View) (bs : List Buffer) : Prop :=
  ∀ j, j < bs.length →
    ∃ k, k < vs.length ∧ 12 < (vs.getD k viewDefault).length
      ∧ (vs.getD k viewDefault).buffer_idx = j

/-- Source buffer referenced by a gathered item. -/
def refBuf (vb : View × List Buffer) : Buffer :=
  vb.2.getD vb.1.buffer_idx bufferDefault

/-- Relation between the item selected for one address and the view and
validity bit emitted for it, relative to the output pool. -/
def emitAt (itemOf : ChunkId → Option (View × List Buffer)) (id : ChunkId)
    (v : View) (bit : Bool) (bs : List Buffer) : Prop :=
  match itemOf id with
  | none => v = viewDefault ∧ bit = false
  | some vb =>
      bit = true ∧ v.length = vb.1.length ∧ v.inlineData = vb.1.inlineData
        ∧ v.offset = vb.1.offset
        ∧ (vb.1.length ≤ 12 → v = vb.1)
        ∧ (12 < vb.1.length → v.buffer_idx < bs.length
            ∧ bs.getD v.buffer_idx bufferDefault = refBuf vb)

/-- Invariant of the emitted prefix relative to the processed
addresses. -/
def emitInv (itemOf : ChunkId → Option (View × List Buffer))
    (done : List ChunkId) (vs : List View) (vd : List Bool)
    (bs : List Buffer) : Prop :=
  vs.length = done.length ∧ vd.length = done.length ∧
  ∀ k, k < done.length →
    emitAt itemOf (done.getD k .nullId) (vs.getD k viewDefault)
      (vd.getD k true) bs

/-- Hypothesis on the addresses: each long gathered item references a
buffer of S. -/
def itemsOk (itemOf : ChunkId → Option (View × List Buffer))
    (S : List Buffer) (ids : List ChunkId) : Prop :=
  ∀ id ∈ ids, ∀ vb, itemOf id = some vb → 12 < vb.1.length → refBuf vb ∈ S


/-- Helper: reading the appended element of a pool. -/
theorem getD_concat_self {β : Type} (l : List β) (a : β) (d : β) :
    (l ++ [a]).getD l.length d = a := by
  rw [getD_append_right _ _ _ _ (Nat.le_refl _)]
  simp

/-- Appending a buffer extends the key enumeration by one entry at the
next index. -/
theorem enumKeysFrom_append (bs : List Buffer) (n : Nat) (b : Buffer) :
    enumKeysFrom n (bs ++ [b])
      = enumKeysFrom n bs ++ [(bufKey b, n + bs.length)] := by
  induction bs generalizing n with
  | nil => simp [enumKeysFrom]
  | cons hd tl ih =>
    have h : n + 1 + tl.length = n + (tl.length + 1) := by omega
    simp only [List.cons_append, enumKeysFrom, List.length_cons,
      List.append_eq]
    rw [ih, h]

/-- Successful lookup in a key enumeration returns a pool index whose
buffer carries the key. -/
theorem alookup_enumKeysFrom_some (key : Nat × Nat) (bs : List Buffer)
    (n j : Nat) (h : alookup key (enumKeysFrom n bs) = some j) :
    ∃ j0, j0 < bs.length ∧ j = n + j0
      ∧ bufKey (bs.getD j0 bufferDefault) = key := by
  induction bs generalizing n with
  | nil => simp [enumKeysFrom, alookup] at h
  | cons hd tl ih =>
    simp only [enumKeysFrom, alookup] at h
    by_cases hk : bufKey hd = key
    · rw [if_pos hk] at h
      injection h with hnj
      refine ⟨0, by simp, by omega, ?_⟩
      simpa [List.getD] using hk
    · rw [if_neg hk] at h
      obtain ⟨j0, hj0, hje, hkey⟩ := ih (n + 1) h
      refine ⟨j0 + 1, ?_, by omega, ?_⟩
      · simp only [List.length_cons]
        omega
      · simpa [List.getD] using hkey

/-- Failed lookup in a key enumeration means no pool buffer carries the
key. -/
theorem alookup_enumKeysFrom_none (key : Nat × Nat) (bs : List Buffer)
    (n : Nat) (h : alookup key (enumKeysFrom n bs) = none) :
    ∀ b ∈ bs, bufKey b ≠ key := by
  induction bs generalizing n with
  | nil => simp
  | cons hd tl ih =>
    simp only [enumKeysFrom, alookup] at h
    by_cases hk : bufKey hd = key
    · rw [if_pos hk] at h
      simp at h
    · rw [if_neg hk] at h
      intro b hb
      rcases List.mem_cons.mp hb with rfl | hb2
      · exact hk
      · exact ih (n + 1) h b hb2

/-- Rewrite: a short view leaves the dedup state untouched. -/
theorem update_view_short (view : View) (obufs : List Buffer)
    (m : List ((Nat × Nat) × Nat)) (bs : List Buffer)
    (h : view.length ≤ 12) :
    update_view view obufs m bs = (view, m, bs) := by
  simp only [update_view]
  rw [if_neg (Nat.not_lt.mpr h)]

/-- Rewrite: a long view whose referenced buffer is already admitted only
rewrites the buffer index. -/
theorem update_view_long_occupied (view : View) (obufs : List Buffer)
    (m : List ((Nat × Nat) × Nat)) (bs : List Buffer) (o : Nat)
    (hlen : 12 < view.length)
    (halk : alookup (bufKey (obufs.getD view.buffer_idx bufferDefault)) m
      = some o) :
    update_view view obufs m bs = ({ view with buffer_idx := o }, m, bs) := by
  simp only [update_view]
  rw [if_pos hlen, halk]

/-- Rewrite: a long view whose referenced buffer is new admits it at the
end of the pool and records it in the map. -/
theorem update_view_long_vacant (view : View) (obufs : List Buffer)
    (m : List ((Nat × Nat) × Nat)) (bs : List Buffer)
    (hlen : 12 < view.length)
    (halk : alookup (bufKey (obufs.getD view.buffer_idx bufferDefault)) m
      = none) :
    update_view view obufs m bs
      = ({ view with buffer_idx := bs.length },
          m ++ [(bufKey (obufs.getD view.buffer_idx bufferDefault),
            bs.length)],
          bs ++ [obufs.getD view.buffer_idx bufferDefault]) := by
  simp only [update_view]
  rw [if_pos hlen, halk]

/-- Specification of `update_view` against the dedup invariant: the
invariant is preserved, all fields except the buffer index survive, short
views pass through unchanged, the rewritten index of a long view
addresses the admitted copy of the referenced source buffer, and the pool
either stays put or grows by exactly that buffer. -/
theorem update_view_spec (view : View) (obufs : List Buffer)
    (m : List ((Nat × Nat) × Nat)) (bs S : List Buffer) (v' : View)
    (m' : List ((Nat × Nat) × Nat)) (bs' : List Buffer)
    (hKI : keyInjOn S) (hpool : poolInv m bs S)
    (hmem : 12 < view.length →
      obufs.getD view.buffer_idx bufferDefault ∈ S)
    (heq : update_view view obufs m bs = (v', m', bs')) :
    poolInv m' bs' S
    ∧ v'.length = view.length ∧ v'.inlineData = view.inlineData
    ∧ v'.offset = view.offset
    ∧ (view.length ≤ 12 → v' = view ∧ m' = m ∧ bs' = bs)
    ∧ (12 < view.length → v'.buffer_idx < bs'.length
        ∧ bs'.getD v'.buffer_idx bufferDefault
          = obufs.getD view.buffer_idx bufferDefault)
    ∧ (bs' = bs
        ∨ (bs' = bs ++ [obufs.getD view.buffer_idx bufferDefault]
            ∧ v'.buffer_idx = bs.length)) := by
  by_cases hlen : 12 < view.length
  · cases halk : alookup (bufKey (obufs.getD view.buffer_idx bufferDefault)) m with
    | some o =>
      rw [update_view_long_occupied view obufs m bs o hlen halk] at heq
      injection heq with h1 h23
      injection h23 with h2 h3
      subst h1; subst h2; subst h3
      obtain ⟨hm, hnd, hsub⟩ := hpool
      rw [hm] at halk
      obtain ⟨j0, hj0, hje, hkey⟩ := alookup_enumKeysFrom_some _ _ _ _ halk
      have ho : o = j0 := by omega
      have hj0' : o < bs.length := by omega
      have hkey' : bufKey (bs.getD o bufferDefault)
          = bufKey (obufs.getD view.buffer_idx bufferDefault) := by
        rw [ho]; exact hkey
      have hbmem : bs.getD o bufferDefault ∈ bs := getD_mem_of_lt _ _ _ hj0'
      have hbeq : bs.getD o bufferDefault
          = obufs.getD view.buffer_idx bufferDefault :=
        hKI _ (hsub _ hbmem) _ (hmem hlen) hkey'
      refine ⟨⟨hm, hnd, hsub⟩, rfl, rfl, rfl, ?_, ?_, Or.inl rfl⟩
      · intro hshort; omega
      · intro _
        exact ⟨hj0', hbeq⟩
    | none =>
      rw [update_view_long_vacant view obufs m bs hlen halk] at heq
      injection heq with h1 h23
      injection h23 with h2 h3
      subst h1; subst h2; subst h3
      obtain ⟨hm, hnd, hsub⟩ := hpool
      have hnotin : ∀ b ∈ bs,
          bufKey b ≠ bufKey (obufs.getD view.buffer_idx bufferDefault) := by
        rw [hm] at halk
        exact alookup_enumKeysFrom_none _ _ _ halk
      refine ⟨⟨?_, ?_, ?_⟩, rfl, rfl, rfl, ?_, ?_, Or.inr ⟨rfl, rfl⟩⟩
      · rw [enumKeysFrom_append, hm]
        simp
      · rw [List.map_append]
        simp only [List.map_cons, List.map_nil]
        rw [List.nodup_append]
        refine ⟨hnd, List.nodup_singleton _, ?_⟩
        intro k hk
        simp only [List.mem_singleton]
        intro hkk
        obtain ⟨b, hb, rfl⟩ := List.mem_map.mp hk
        exact hnotin b hb hkk
      · intro b hb
        rcases List.mem_append.mp hb with hb1 | hb2
        · exact hsub _ hb1
        · rw [List.mem_singleton.mp hb2]
          exact hmem hlen
      · intro hshort; omega
      · intro _
        constructor
        · simp
        · exact getD_concat_self _ _ _
  · have hshort : view.length ≤ 12 := by omega
    rw [update_view_short view obufs m bs hshort] at heq
    injection heq with h1 h23
    injection h23 with h2 h3
    subst h1; subst h2; subst h3
    refine ⟨hpool, rfl, rfl, rfl, fun _ => ⟨rfl, rfl, rfl⟩, ?_, Or.inl rfl⟩
    intro hl; omega

/-- Rewrite: a null item pushes the placeholder and a false bit. -/
theorem genStep_none (itemOf : ChunkId → Option (View × List Buffer))
    (vs : List View) (vd : List Bool) (m : List ((Nat × Nat) × Nat))
    (bs : List Buffer) (id : ChunkId) (h : itemOf id = none) :
    genStep itemOf (vs, vd, m, bs) id
      = (vs ++ [viewDefault], vd ++ [false], m, bs) := by
  simp [genStep, h]

/-- Rewrite: a gathered item pushes the rewritten view and a true bit and
updates the dedup state. -/
theorem genStep_some (itemOf : ChunkId → Option (View × List Buffer))
    (vs : List View) (vd : List Bool) (m : List ((Nat × Nat) × Nat))
    (bs : List Buffer) (id : ChunkId) (vb : View × List Buffer)
    (h : itemOf id = some vb) :
    genStep itemOf (vs, vd, m, bs) id
      = (vs ++ [(update_view vb.1 vb.2 m bs).1],
          vd ++ [true],
          (update_view vb.1 vb.2 m bs).2.1,
          (update_view vb.1 vb.2 m bs).2.2) := by
  simp [genStep, h]

/-- The emitted-view relation is stable under extending the pool without
touching existing entries. -/
theorem emitAt_mono (itemOf : ChunkId → Option (View × List Buffer))
    (id : ChunkId) (v : View) (bit : Bool) (bs bs' : List Buffer)
    (hstab : ∀ j, j < bs.length →
      bs'.getD j bufferDefault = bs.getD j bufferDefault)
    (hlen : bs.length ≤ bs'.length)
    (h : emitAt itemOf id v bit bs) : emitAt itemOf id v bit bs' := by
  unfold emitAt at h ⊢
  cases hit : itemOf id with
  | none => rw [hit] at h; exact h
  | some vb =>
    rw [hit] at h
    obtain ⟨hb, hl, hi, ho, hs, hlong⟩ := h
    refine ⟨hb, hl, hi, ho, hs, ?_⟩
    intro hl12
    obtain ⟨hidx, hbuf⟩ := hlong hl12
    exact ⟨Nat.lt_of_lt_of_le hidx hlen, by rw [hstab _ hidx]; exact hbuf⟩

/-- One loop step preserves all three invariants, extending the processed
prefix by the stepped address. -/
theorem genStep_inv (itemOf : ChunkId → Option (View × List Buffer))
    (S : List Buffer) (hKI : keyInjOn S) (id : ChunkId)
    (done : List ChunkId) (vs : List View) (vd : List Bool)
    (m : List ((Nat × Nat) × Nat)) (bs : List Buffer) (vs' : List View)
    (vd' : List Bool) (m' : List ((Nat × Nat) × Nat)) (bs' : List Buffer)
    (hpool : poolInv m bs S) (hemit : emitInv itemOf done vs vd bs)
    (hrefd : refdInv vs bs)
    (hid : ∀ vb, itemOf id = some vb → 12 < vb.1.length → refBuf vb ∈ S)
    (heq : genStep itemOf (vs, vd, m, bs) id = (vs', vd', m', bs')) :
    poolInv m' bs' S ∧ emitInv itemOf (done ++ [id]) vs' vd' bs'
      ∧ refdInv vs' bs' := by
  obtain ⟨hvslen, hvdlen, hall⟩ := hemit
  cases hit : itemOf id with
  | none =>
    rw [genStep_none itemOf vs vd m bs id hit] at heq
    injection heq with h1 hneq
    injection hneq with h2 hneq2
    injection hneq2 with h3 h4
    subst h1; subst h2; subst h3; subst h4
    refine ⟨hpool, ⟨by simp [hvslen], by simp [hvdlen], ?_⟩, ?_⟩
    · intro k hk
      simp only [List.length_append, List.length_cons, List.length_nil] at hk
      by_cases hk2 : k < done.length
      · rw [getD_append_left _ _ _ _ hk2,
          getD_append_left _ _ _ _ (by omega),
          getD_append_left _ _ _ _ (by omega)]
        exact hall k hk2
      · have hkd : k = done.length := by omega
        subst hkd
        rw [getD_concat_self]
        rw [show done.length = vs.length from hvslen.symm, getD_concat_self]
        rw [show vs.length = vd.length from by omega, getD_concat_self]
        unfold emitAt
        rw [hit]
        exact ⟨rfl, rfl⟩
    · intro j hj
      obtain ⟨k, hk, hklong, hkidx⟩ := hrefd j hj
      refine ⟨k, by simp; omega, ?_, ?_⟩
      · rw [getD_append_left _ _ _ _ hk]; exact hklong
      · rw [getD_append_left _ _ _ _ hk]; exact hkidx
  | some vb =>
    rcases huv : update_view vb.1 vb.2 m bs with ⟨rv, rm, rbs⟩
    rw [genStep_some itemOf vs vd m bs id vb hit] at heq
    simp only [huv] at heq
    injection heq with h1 hneq
    injection hneq with h2 hneq2
    injection hneq2 with h3 h4
    subst h1; subst h2; subst h3; subst h4
    obtain ⟨hpool', hrlen, hrinl, hroff, hshort, hlong, hext⟩ :=
      update_view_spec vb.1 vb.2 m bs S rv rm rbs hKI hpool
        (fun hl => hid vb hit hl) huv
    have hstab : ∀ j, j < bs.length →
        rbs.getD j bufferDefault = bs.getD j bufferDefault := by
      intro j hj
      rcases hext with rfl | ⟨happ, _⟩
      · rfl
      · rw [happ]; exact getD_append_left _ _ _ _ hj
    have hlenle : bs.length ≤ rbs.length := by
      rcases hext with rfl | ⟨happ, _⟩
      · exact Nat.le_refl _
      · rw [happ]; simp
    refine ⟨hpool', ⟨by simp [hvslen], by simp [hvdlen], ?_⟩, ?_⟩
    · intro k hk
      simp only [List.length_append, List.length_cons, List.length_nil] at hk
      by_cases hk2 : k < done.length
      · rw [getD_append_left _ _ _ _ hk2,
          getD_append_left _ _ _ _ (by omega),
          getD_append_left _ _ _ _ (by omega)]
        exact emitAt_mono itemOf _ _ _ bs rbs hstab hlenle (hall k hk2)
      · have hkd : k = done.length := by omega
        subst hkd
        rw [getD_concat_self]
        rw [show done.length = vs.length from hvslen.symm, getD_concat_self]
        rw [show vs.length = vd.length from by omega, getD_concat_self]
        unfold emitAt
        rw [hit]
        refine ⟨rfl, hrlen, hrinl, hroff, ?_, ?_⟩
        · intro hsh
          exact (hshort hsh).1
        · intro hl
          exact hlong hl
    · intro j hj
      rcases hext with rfl | ⟨happ, hidx⟩
      · obtain ⟨k, hk, hklong, hkidx⟩ := hrefd j hj
        refine ⟨k, by simp; omega, ?_, ?_⟩
        · rw [getD_append_left _ _ _ _ hk]; exact hklong
        · rw [getD_append_left _ _ _ _ hk]; exact hkidx
      · have hjlt : j < bs.length + 1 := by
          rw [happ] at hj; simpa using hj
        by_cases hj2 : j < bs.length
        · obtain ⟨k, hk, hklong, hkidx⟩ := hrefd j hj2
          refine ⟨k, by simp; omega, ?_, ?_⟩
          · rw [getD_append_left _ _ _ _ hk]; exact hklong
          · rw [getD_append_left _ _ _ _ hk]; exact hkidx
        · have hjd : j = bs.length := by omega
          subst hjd
          have hvblong : 12 < vb.1.length := by
            by_contra hc
            have hsh := hshort (by omega)
            have hcontr : bs = bs ++ [vb.2.getD vb.1.buffer_idx bufferDefault] :=
              hsh.2.2.symm.trans happ
            have hlencontr := congrArg List.length hcontr
            simp at hlencontr
          refine ⟨vs.length, by simp, ?_, ?_⟩
          · rw [getD_concat_self]
            omega
          · rw [getD_concat_self]
            exact hidx

/-- The loop fold preserves all three invariants, extending the processed
prefix by all stepped addresses. -/
theorem genFold_inv (itemOf : ChunkId → Option (View × List Buffer))
    (S : List Buffer) (hKI : keyInjOn S) :
    ∀ (ids done : List ChunkId) (vs : List View) (vd : List Bool)
      (m : List ((Nat × Nat) × Nat)) (bs : List Buffer),
      poolInv m bs S → emitInv itemOf done vs vd bs → refdInv vs bs →
      (∀ id ∈ ids, ∀ vb, itemOf id = some vb → 12 < vb.1.length →
        refBuf vb ∈ S) →
      poolInv (ids.foldl (genStep itemOf) (vs, vd, m, bs)).2.2.1
          (ids.foldl (genStep itemOf) (vs, vd, m, bs)).2.2.2 S
        ∧ emitInv itemOf (done ++ ids)
            (ids.foldl (genStep itemOf) (vs, vd, m, bs)).1
            (ids.foldl (genStep itemOf) (vs, vd, m, bs)).2.1
            (ids.foldl (genStep itemOf) (vs, vd, m, bs)).2.2.2
        ∧ refdInv (ids.foldl (genStep itemOf) (vs, vd, m, bs)).1
            (ids.foldl (genStep itemOf) (vs, vd, m, bs)).2.2.2 := by
  intro ids
  induction ids with
  | nil =>
    intro done vs vd m bs hpool hemit hrefd _
    simpa using ⟨hpool, hemit, hrefd⟩
  | cons id rest ih =>
    intro done vs vd m bs hpool hemit hrefd hids
    rw [List.foldl_cons]
    rcases hst : genStep itemOf (vs, vd, m, bs) id with ⟨vs1, vd1, m1, bs1⟩
    obtain ⟨hpool1, hemit1, hrefd1⟩ :=
      genStep_inv itemOf S hKI id done vs vd m bs vs1 vd1 m1 bs1 hpool hemit
        hrefd (fun vb hvb => hids id (by simp) vb hvb) hst
    have hids1 : ∀ i ∈ rest, ∀ vb, itemOf i = some vb → 12 < vb.1.length →
        refBuf vb ∈ S :=
      fun i hi => hids i (by simp [hi])
    have hrec := ih (done ++ [id]) vs1 vd1 m1 bs1 hpool1 hemit1 hrefd1 hids1
    simpa using hrec

/-- Invariants delivered by a full gather loop from the empty state. -/
theorem gatherLoop_spec (itemOf : ChunkId → Option (View × List Buffer))
    (S : List Buffer) (ids : List ChunkId) (hKI : keyInjOn S)
    (hids : ∀ id ∈ ids, ∀ vb, itemOf id = some vb → 12 < vb.1.length →
      refBuf vb ∈ S) :
    poolInv (ids.foldl (genStep itemOf) ([], [], [], [])).2.2.1
        (ids.foldl (genStep itemOf) ([], [], [], [])).2.2.2 S
      ∧ emitInv itemOf ids (ids.foldl (genStep itemOf) ([], [], [], [])).1
          (ids.foldl (genStep itemOf) ([], [], [], [])).2.1
          (ids.foldl (genStep itemOf) ([], [], [], [])).2.2.2
      ∧ refdInv (ids.foldl (genStep itemOf) ([], [], [], [])).1
          (ids.foldl (genStep itemOf) ([], [], [], [])).2.2.2 := by
  have h0pool : poolInv [] [] S := ⟨rfl, by simp, by simp⟩
  have h0emit : emitInv itemOf [] [] [] [] := by
    refine ⟨rfl, rfl, ?_⟩
    intro k hk
    simp at hk
  have h0refd : refdInv [] [] := by
    intro j hj
    simp at hj
  have hrec := genFold_inv itemOf S hKI ids [] [] [] [] [] h0pool h0emit
    h0refd hids
  simpa using hrec

/-- A chunk without nulls has no null cell. -/
theorem chunk_no_nulls_cell (ch : BVChunk) (i : Nat)
    (h : ch.has_nulls = false) : ch.is_null_unchecked i = false := by
  unfold BVChunk.has_nulls at h
  unfold BVChunk.is_null_unchecked
  cases hv : ch.validity with
  | none => rfl
  | some v =>
    rw [hv] at h
    have h' : v.contains false = false := h
    have hnm : false ∉ v := by simpa using h'
    show (!v.getD i true) = false
    by_cases hi : i < v.length
    · have hmem : v.getD i true ∈ v := getD_mem_of_lt _ _ _ hi
      cases hx : v.getD i true with
      | false => rw [hx] at hmem; exact absurd hmem hnm
      | true => rfl
    · rw [List.getD_eq_default _ _ (by omega)]
      rfl

/-- Cell value of a chunk assembled from the loop results (validity
attached): a null item denotes none, a gathered item denotes its source
value. -/
theorem emitInv_cellVal (itemOf : ChunkId → Option (View × List Buffer))
    (ids : List ChunkId) (vs : List View) (vd : List Bool)
    (bs : List Buffer) (hemit : emitInv itemOf ids vs vd bs) (k : Nat)
    (hk : k < ids.length) :
    BVChunk.cellVal ⟨vs, bs, some vd⟩ k
      = (match itemOf (ids.getD k .nullId) with
          | none => none
          | some vb => some (bufVal vb.2 vb.1)) := by
  obtain ⟨hvslen, hvdlen, hall⟩ := hemit
  have h := hall k hk
  unfold emitAt at h
  cases hit : itemOf (ids.getD k .nullId) with
  | none =>
    rw [hit] at h
    obtain ⟨hv, hb⟩ := h
    have hnull : BVChunk.is_null_unchecked ⟨vs, bs, some vd⟩ k = true := by
      show (!vd.getD k true) = true
      rw [hb]
      rfl
    simp [BVChunk.cellVal, hnull]
  | some vb =>
    rw [hit] at h
    obtain ⟨hb, hl, hi, ho, hs, hlong⟩ := h
    have hnull : BVChunk.is_null_unchecked ⟨vs, bs, some vd⟩ k = false := by
      show (!vd.getD k true) = false
      rw [hb]
      rfl
    simp only [BVChunk.cellVal, hnull, Bool.false_eq_true, if_false]
    congr 1
    unfold bufVal
    by_cases hlen : vb.1.length ≤ 12
    · rw [hs hlen, if_pos hlen, if_pos hlen]
    · have h12 : 12 < vb.1.length := by omega
      obtain ⟨hidx, hbuf⟩ := hlong h12
      rw [hl, if_neg hlen, if_neg hlen, hbuf, ho]
      rfl

/-- Cell value of a chunk assembled from the loop results without a
validity bitmap, for a position whose item was gathered. -/
theorem emitInv_cellVal_nv (itemOf : ChunkId → Option (View × List Buffer))
    (ids : List ChunkId) (vs : List View) (vd : List Bool)
    (bs : List Buffer) (hemit : emitInv itemOf ids vs vd bs) (k : Nat)
    (hk : k < ids.length) (vb : View × List Buffer)
    (hit : itemOf (ids.getD k .nullId) = some vb) :
    BVChunk.cellVal ⟨vs, bs, none⟩ k = some (bufVal vb.2 vb.1) := by
  obtain ⟨hvslen, hvdlen, hall⟩ := hemit
  have h := hall k hk
  unfold emitAt at h
  rw [hit] at h
  obtain ⟨hb, hl, hi, ho, hs, hlong⟩ := h
  have hnull : BVChunk.is_null_unchecked ⟨vs, bs, none⟩ k = false := rfl
  simp only [BVChunk.cellVal, hnull, Bool.false_eq_true, if_false]
  congr 1
  unfold bufVal
  by_cases hlen : vb.1.length ≤ 12
  · rw [hs hlen, if_pos hlen, if_pos hlen]
  · have h12 : 12 < vb.1.length := by omega
    obtain ⟨hidx, hbuf⟩ := hlong h12
    rw [hl, if_neg hlen, if_neg hlen, hbuf, ho]
    rfl

/-- Pointwise description of a range-map (a chunk denotation) as a map
over the address list. -/
theorem range_map_eq_map (ids : List ChunkId)
    (f : Nat → Option (List Nat)) (g : ChunkId → Option (List Nat))
    (hpt : ∀ k, k < ids.length → f k = g (ids.getD k .nullId)) :
    (List.range ids.length).map f = ids.map g := by
  apply List.ext_getElem
  · simp
  · intro k h1 h2
    simp only [List.getElem_map, List.getElem_range]
    have hk : k < ids.length := by simpa using h2
    rw [hpt k hk]
    congr 1
    rw [List.getD_eq_getElem?_getD, List.getElem?_eq_getElem hk]
    rfl

/-- Shape of any gathered (non-null) item: the selected source view and
the owning chunk's buffer pool. -/
theorem item_some_shape (ca : BVCA) (id : ChunkId) (vb : View × List Buffer)
    (h : gatherItemTakeNulls ca id = some vb
        ∨ gatherItemTakeNoNulls ca id = some vb
        ∨ gatherItemOptNulls ca id = some vb
        ∨ gatherItemOptNoNulls ca id = some vb) :
    vb = ((ca.chunks.getD id.extract.1 bvChunkDefault).views.getD
            id.extract.2 viewDefault,
          (ca.chunks.getD id.extract.1 bvChunkDefault).buffers) := by
  rcases h with h | h | h | h
  · simp only [gatherItemTakeNulls] at h
    split at h
    · exact absurd h (by simp)
    · injection h with h2
      exact h2.symm
  · simp only [gatherItemTakeNoNulls] at h
    injection h with h2
    exact h2.symm
  · simp only [gatherItemOptNulls, gatherItemTakeNulls] at h
    split at h
    · exact absurd h (by simp)
    · split at h
      · exact absurd h (by simp)
      · injection h with h2
        exact h2.symm
  · simp only [gatherItemOptNoNulls, gatherItemTakeNoNulls] at h
    split at h
    · exact absurd h (by simp)
    · injection h with h2
      exact h2.symm

/-- A long gathered item of a well-formed source references a source
buffer. -/
theorem item_refBuf_mem (ca : BVCA) (hwf : ca.wf = true) (id : ChunkId)
    (hv : validBV ca id = true) (vb : View × List Buffer)
    (hvb : vb = ((ca.chunks.getD id.extract.1 bvChunkDefault).views.getD
            id.extract.2 viewDefault,
          (ca.chunks.getD id.extract.1 bvChunkDefault).buffers))
    (hlong : 12 < vb.1.length) : refBuf vb ∈ ca.srcBuffers := by
  subst hvb
  cases id with
  | nullId => simp [validBV] at hv
  | pos c i =>
    simp only [validBV, Bool.and_eq_true, decide_eq_true_eq] at hv
    obtain ⟨hc, hi⟩ := hv
    simp only [ChunkId.extract] at hlong ⊢
    have harrmem : ca.chunks.getD c bvChunkDefault ∈ ca.chunks :=
      getD_mem_of_lt _ _ _ hc
    have harrwf : (ca.chunks.getD c bvChunkDefault).wf = true :=
      (List.all_eq_true.mp hwf) _ harrmem
    have hviewmem :
        (ca.chunks.getD c bvChunkDefault).views.getD i viewDefault
          ∈ (ca.chunks.getD c bvChunkDefault).views :=
      getD_mem_of_lt _ _ _ hi
    have hcase := (List.all_eq_true.mp harrwf) _ hviewmem
    simp only [Bool.or_eq_true, decide_eq_true_eq] at hcase
    rcases hcase with hshort | hidx
    · exact absurd hlong (by omega)
    · unfold refBuf
      have hbmem :
          (ca.chunks.getD c bvChunkDefault).buffers.getD
              ((ca.chunks.getD c bvChunkDefault).views.getD i
                viewDefault).buffer_idx bufferDefault
            ∈ (ca.chunks.getD c bvChunkDefault).buffers :=
        getD_mem_of_lt _ _ _ hidx
      unfold BVCA.srcBuffers
      exact List.mem_flatten.mpr
        ⟨(ca.chunks.getD c bvChunkDefault).buffers,
          List.mem_map.mpr ⟨_, harrmem, rfl⟩, hbmem⟩

/-- The gathered-or-null item of the nulls-aware source loop denotes the
naive cell value. -/
theorem itemTakeNulls_expected (ca : BVCA) (id : ChunkId) :
    (match gatherItemTakeNulls ca id with
      | none => none
      | some vb => some (bufVal vb.2 vb.1)) = naiveBV ca id := by
  simp only [gatherItemTakeNulls, naiveBV, BVChunk.cellVal]
  cases h : (ca.chunks.getD id.extract.1 bvChunkDefault).is_null_unchecked
      id.extract.2 with
  | true => rfl
  | false => rfl

/-- The item of the no-nulls source loop denotes the naive cell value on
a source without nulls. -/
theorem itemTakeNoNulls_expected (ca : BVCA) (id : ChunkId)
    (hn : ca.has_nulls = false) (hv : validBV ca id = true) :
    (match gatherItemTakeNoNulls ca id with
      | none => none
      | some vb => some (bufVal vb.2 vb.1)) = naiveBV ca id := by
  cases id with
  | nullId => simp [validBV] at hv
  | pos c i =>
    simp only [validBV, Bool.and_eq_true, decide_eq_true_eq] at hv
    obtain ⟨hc, hi⟩ := hv
    have hchn : (ca.chunks.getD c bvChunkDefault).has_nulls = false := by
      unfold BVCA.has_nulls at hn
      have hh := List.any_eq_false.mp hn _
        (getD_mem_of_lt ca.chunks c bvChunkDefault hc)
      simpa using hh
    have hcell := chunk_no_nulls_cell (ca.chunks.getD c bvChunkDefault) i hchn
    simp only [List.getD_eq_getElem?_getD] at hcell
    simp only [gatherItemTakeNoNulls, naiveBV, BVChunk.cellVal,
      ChunkId.extract]
    simp [hcell]

/-- The item of the null-aware nulls loop denotes the naive null-aware
cell value. -/
theorem itemOptNulls_expected (ca : BVCA) (id : ChunkId) :
    (match gatherItemOptNulls ca id with
      | none => none
      | some vb => some (bufVal vb.2 vb.1)) = naiveOptBV ca id := by
  unfold gatherItemOptNulls naiveOptBV
  by_cases h : id.is_null
  · simp [h]
  · simp only [h, Bool.false_eq_true, if_false]
    exact itemTakeNulls_expected ca id

/-- The item of the null-aware no-nulls loop denotes the naive null-aware
cell value on a source without nulls. -/
theorem itemOptNoNulls_expected (ca : BVCA) (id : ChunkId)
    (hn : ca.has_nulls = false)
    (hv : (id.is_null || validBV ca id) = true) :
    (match gatherItemOptNoNulls ca id with
      | none => none
      | some vb => some (bufVal vb.2 vb.1)) = naiveOptBV ca id := by
  unfold gatherItemOptNoNulls naiveOptBV
  by_cases h : id.is_null
  · simp [h]
  · simp only [h, Bool.false_eq_true, if_false]
    have hv2 : validBV ca id = true := by
      rcases Bool.or_eq_true_iff.mp hv with h1 | h2
      · exact absurd h1 h
      · exact h2
    exact itemTakeNoNulls_expected ca id hn hv2

/-- Denotation of a single-chunk array is the chunk denotation. -/
theorem denote_single (ch : BVChunk) (f : IsSorted) :
    BVCA.denote ⟨[ch], f⟩ = ch.denote := by
  simp [BVCA.denote]

/-- A null-aware selector only gathers non-sentinel addresses. -/
theorem itemOpt_some_not_null (ca : BVCA) (id : ChunkId)
    (vb : View × List Buffer)
    (h : gatherItemOptNulls ca id = some vb
        ∨ gatherItemOptNoNulls ca id = some vb) : id.is_null = false := by
  cases hn : id.is_null with
  | true =>
    exfalso
    rcases h with h | h
    · simp [gatherItemOptNulls, hn] at h
    · simp [gatherItemOptNoNulls, hn] at h
  | false => rfl

/-- Denotation of the multi-chunk branch of the non-null gather: it is
the naive indexed take. -/
theorem takeBinviewMulti_denote (ca : BVCA) (ids : List ChunkId)
    (hwf : ca.wf = true) (hKI : keyInjOn ca.srcBuffers)
    (hv : ids.all (validBV ca) = true) :
    (takeBinviewMulti ca ids).denote = ids.map (naiveBV ca) := by
  unfold takeBinviewMulti
  by_cases hn : ca.has_nulls = true
  · rw [if_pos hn]
    show BVChunk.denote
      ⟨(ids.foldl (genStep (gatherItemTakeNulls ca)) ([], [], [], [])).1,
        (ids.foldl (genStep (gatherItemTakeNulls ca)) ([], [], [], [])).2.2.2,
        some (ids.foldl (genStep (gatherItemTakeNulls ca))
          ([], [], [], [])).2.1⟩ = ids.map (naiveBV ca)
    have hids : ∀ id ∈ ids, ∀ vb, gatherItemTakeNulls ca id = some vb →
        12 < vb.1.length → refBuf vb ∈ ca.srcBuffers := by
      intro id hid vb hvb hlong
      exact item_refBuf_mem ca hwf id ((List.all_eq_true.mp hv) id hid) vb
        (item_some_shape ca id vb (Or.inl hvb)) hlong
    obtain ⟨hpool, hemit, hrefd⟩ :=
      gatherLoop_spec (gatherItemTakeNulls ca) ca.srcBuffers ids hKI hids
    rcases hst : ids.foldl (genStep (gatherItemTakeNulls ca)) ([], [], [], [])
      with ⟨vs, vd, m, bs⟩
    simp only [hst] at hemit
    unfold BVChunk.denote
    show (List.range vs.length).map (BVChunk.cellVal ⟨vs, bs, some vd⟩)
      = ids.map (naiveBV ca)
    rw [show vs.length = ids.length from hemit.1]
    apply range_map_eq_map
    intro k hk
    rw [emitInv_cellVal (gatherItemTakeNulls ca) ids vs vd bs hemit k hk]
    exact itemTakeNulls_expected ca (ids.getD k .nullId)
  · rw [if_neg hn]
    have hnn : ca.has_nulls = false := by
      cases hx : ca.has_nulls with
      | true => exact absurd hx hn
      | false => rfl
    show BVChunk.denote
      ⟨(ids.foldl (genStep (gatherItemTakeNoNulls ca)) ([], [], [], [])).1,
        (ids.foldl (genStep (gatherItemTakeNoNulls ca))
          ([], [], [], [])).2.2.2, none⟩ = ids.map (naiveBV ca)
    have hids : ∀ id ∈ ids, ∀ vb, gatherItemTakeNoNulls ca id = some vb →
        12 < vb.1.length → refBuf vb ∈ ca.srcBuffers := by
      intro id hid vb hvb hlong
      exact item_refBuf_mem ca hwf id ((List.all_eq_true.mp hv) id hid) vb
        (item_some_shape ca id vb (Or.inr (Or.inl hvb))) hlong
    obtain ⟨hpool, hemit, hrefd⟩ :=
      gatherLoop_spec (gatherItemTakeNoNulls ca) ca.srcBuffers ids hKI hids
    rcases hst : ids.foldl (genStep (gatherItemTakeNoNulls ca))
      ([], [], [], []) with ⟨vs, vd, m, bs⟩
    simp only [hst] at hemit
    unfold BVChunk.denote
    show (List.range vs.length).map (BVChunk.cellVal ⟨vs, bs, none⟩)
      = ids.map (naiveBV ca)
    rw [show vs.length = ids.length from hemit.1]
    apply range_map_eq_map
    intro k hk
    have hit : gatherItemTakeNoNulls ca (ids.getD k .nullId)
        = some ((ca.chunks.getD (ids.getD k .nullId).extract.1
            bvChunkDefault).views.getD (ids.getD k .nullId).extract.2
            viewDefault,
          (ca.chunks.getD (ids.getD k .nullId).extract.1
            bvChunkDefault).buffers) := rfl
    rw [emitInv_cellVal_nv (gatherItemTakeNoNulls ca) ids vs vd bs hemit k hk
      _ hit]
    have hexp := itemTakeNoNulls_expected ca (ids.getD k .nullId) hnn
      ((List.all_eq_true.mp hv) _ (getD_mem_of_lt ids k ChunkId.nullId hk))
    rw [hit] at hexp
    exact hexp

/-- Denotation of the multi-chunk branch of the null-aware gather: it is
the naive null-aware indexed take. -/
theorem takeBinviewOptMulti_denote (ca : BVCA) (ids : List ChunkId)
    (hwf : ca.wf = true) (hKI : keyInjOn ca.srcBuffers)
    (hv : ids.all (fun id => id.is_null || validBV ca id) = true) :
    (takeBinviewOptMulti ca ids).denote = ids.map (naiveOptBV ca) := by
  unfold takeBinviewOptMulti
  by_cases hn : ca.has_nulls = true
  · rw [if_pos hn]
    show BVChunk.denote
      ⟨(ids.foldl (genStep (gatherItemOptNulls ca)) ([], [], [], [])).1,
        (ids.foldl (genStep (gatherItemOptNulls ca)) ([], [], [], [])).2.2.2,
        some (ids.foldl (genStep (gatherItemOptNulls ca))
          ([], [], [], [])).2.1⟩ = ids.map (naiveOptBV ca)
    have hids : ∀ id ∈ ids, ∀ vb, gatherItemOptNulls ca id = some vb →
        12 < vb.1.length → refBuf vb ∈ ca.srcBuffers := by
      intro id hid vb hvb hlong
      have hnn := itemOpt_some_not_null ca id vb (Or.inl hvb)
      have hval : validBV ca id = true := by
        have hall := (List.all_eq_true.mp hv) id hid
        rcases Bool.or_eq_true_iff.mp hall with h1 | h2
        · rw [hnn] at h1; exact absurd h1 (by simp)
        · exact h2
      exact item_refBuf_mem ca hwf id hval vb
        (item_some_shape ca id vb (Or.inr (Or.inr (Or.inl hvb)))) hlong
    obtain ⟨hpool, hemit, hrefd⟩ :=
      gatherLoop_spec (gatherItemOptNulls ca) ca.srcBuffers ids hKI hids
    rcases hst : ids.foldl (genStep (gatherItemOptNulls ca)) ([], [], [], [])
      with ⟨vs, vd, m, bs⟩
    simp only [hst] at hemit
    unfold BVChunk.denote
    show (List.range vs.length).map (BVChunk.cellVal ⟨vs, bs, some vd⟩)
      = ids.map (naiveOptBV ca)
    rw [show vs.length = ids.length from hemit.1]
    apply range_map_eq_map
    intro k hk
    rw [emitInv_cellVal (gatherItemOptNulls ca) ids vs vd bs hemit k hk]
    exact itemOptNulls_expected ca (ids.getD k .nullId)
  · rw [if_neg hn]
    have hnn : ca.has_nulls = false := by
      cases hx : ca.has_nulls with
      | true => exact absurd hx hn
      | false => rfl
    show BVChunk.denote
      ⟨(ids.foldl (genStep (gatherItemOptNoNulls ca)) ([], [], [], [])).1,
        (ids.foldl (genStep (gatherItemOptNoNulls ca))
          ([], [], [], [])).2.2.2,
        some (ids.foldl (genStep (gatherItemOptNoNulls ca))
          ([], [], [], [])).2.1⟩ = ids.map (naiveOptBV ca)
    have hids : ∀ id ∈ ids, ∀ vb, gatherItemOptNoNulls ca id = some vb →
        12 < vb.1.length → refBuf vb ∈ ca.srcBuffers := by
      intro id hid vb hvb hlong
      have hnnul := itemOpt_some_not_null ca id vb (Or.inr hvb)
      have hval : validBV ca id = true := by
        have hall := (List.all_eq_true.mp hv) id hid
        rcases Bool.or_eq_true_iff.mp hall with h1 | h2
        · rw [hnnul] at h1; exact absurd h1 (by simp)
        · exact h2
      exact item_refBuf_mem ca hwf id hval vb
        (item_some_shape ca id vb (Or.inr (Or.inr (Or.inr hvb)))) hlong
    obtain ⟨hpool, hemit, hrefd⟩ :=
      gatherLoop_spec (gatherItemOptNoNulls ca) ca.srcBuffers ids hKI hids
    rcases hst : ids.foldl (genStep (gatherItemOptNoNulls ca))
      ([], [], [], []) with ⟨vs, vd, m, bs⟩
    simp only [hst] at hemit
    unfold BVChunk.denote
    show (List.range vs.length).map (BVChunk.cellVal ⟨vs, bs, some vd⟩)
      = ids.map (naiveOptBV ca)
    rw [show vs.length = ids.length from hemit.1]
    apply range_map_eq_map
    intro k hk
    rw [emitInv_cellVal (gatherItemOptNoNulls ca) ids vs vd bs hemit k hk]
    exact itemOptNoNulls_expected ca (ids.getD k .nullId) hnn
      ((List.all_eq_true.mp hv) _ (getD_mem_of_lt ids k ChunkId.nullId hk))

/-- For a single-chunk source, a valid address decodes to chunk 0 and an
in-range offset. -/
theorem validBV_one_chunk (ca : BVCA) (h1 : ca.chunks.length = 1)
    (id : ChunkId) (hv : validBV ca id = true) :
    id.extract.1 = 0
      ∧ id.extract.2 < (ca.chunks.getD 0 bvChunkDefault).views.length
      ∧ id.is_null = false := by
  cases id with
  | nullId => simp [validBV] at hv
  | pos c i =>
    simp only [validBV, Bool.and_eq_true, decide_eq_true_eq] at hv
    obtain ⟨hc, hi⟩ := hv
    have hc0 : c = 0 := by omega
    subst hc0
    exact ⟨rfl, hi, rfl⟩

/-- Denotation of a fast-path chunk with a validity bitmap built from the
address list. -/
theorem denote_map_chunk_some (ids : List ChunkId) (bufs : List Buffer)
    (f : ChunkId → View) (g : ChunkId → Bool) :
    BVChunk.denote ⟨ids.map f, bufs, some (ids.map g)⟩
      = ids.map (fun id =>
          if g id then some (bufVal bufs (f id)) else none) := by
  unfold BVChunk.denote
  show (List.range (ids.map f).length).map
      (BVChunk.cellVal ⟨ids.map f, bufs, some (ids.map g)⟩) = _
  rw [List.length_map]
  apply range_map_eq_map
  intro k hk
  have hfv : (ids.map f).getD k viewDefault = f (ids.getD k .nullId) :=
    getD_map_of_lt f ids k viewDefault .nullId hk
  have hgv : (ids.map g).getD k true = g (ids.getD k .nullId) :=
    getD_map_of_lt g ids k true .nullId hk
  show (if (!(ids.map g).getD k true) = true then none
      else some (bufVal bufs ((ids.map f).getD k viewDefault))) = _
  rw [hfv, hgv]
  cases hx : g (ids.getD k .nullId) with
  | true => simp
  | false => simp

/-- Denotation of a fast-path chunk without a validity bitmap. -/
theorem denote_map_chunk_none (ids : List ChunkId) (bufs : List Buffer)
    (f : ChunkId → View) :
    BVChunk.denote ⟨ids.map f, bufs, none⟩
      = ids.map (fun id => some (bufVal bufs (f id))) := by
  unfold BVChunk.denote
  show (List.range (ids.map f).length).map
      (BVChunk.cellVal ⟨ids.map f, bufs, none⟩) = _
  rw [List.length_map]
  apply range_map_eq_map
  intro k hk
  have hfv : (ids.map f).getD k viewDefault = f (ids.getD k .nullId) :=
    getD_map_of_lt f ids k viewDefault .nullId hk
  show some (bufVal bufs ((ids.map f).getD k viewDefault)) = _
  rw [hfv]

/-- Denotation of the non-null gather on any chunk layout: it is the
naive indexed take of the flattened sequence. -/
theorem take_binview_denote (ca : BVCA) (ids : List ChunkId)
    (sorted : IsSorted) (hwf : ca.wf = true) (hKI : keyInjOn ca.srcBuffers)
    (hv : ids.all (validBV ca) = true) :
    (take_unchecked_binview ca ids sorted).denote = ids.map (naiveBV ca) := by
  unfold take_unchecked_binview
  by_cases h1 : ca.chunks.length = 1
  · rw [if_pos h1]
    by_cases hn : (ca.chunks.getD 0 bvChunkDefault).has_nulls = true
    · rw [if_pos hn, denote_single]
      show BVChunk.denote ⟨ids.map _, _, some (ids.map _)⟩ = _
      rw [denote_map_chunk_some]
      apply List.map_congr_left
      intro id hid
      obtain ⟨hc0, hi, _⟩ :=
        validBV_one_chunk ca h1 id ((List.all_eq_true.mp hv) id hid)
      unfold naiveBV BVChunk.cellVal
      rw [hc0]
      cases hcell : (ca.chunks.getD 0 bvChunkDefault).is_null_unchecked
          id.extract.2 with
      | true => simp
      | false => simp
    · rw [if_neg hn, denote_single]
      show BVChunk.denote ⟨ids.map _, _, none⟩ = _
      rw [denote_map_chunk_none]
      apply List.map_congr_left
      intro id hid
      obtain ⟨hc0, hi, _⟩ :=
        validBV_one_chunk ca h1 id ((List.all_eq_true.mp hv) id hid)
      have hnn : (ca.chunks.getD 0 bvChunkDefault).has_nulls = false := by
        cases hx : (ca.chunks.getD 0 bvChunkDefault).has_nulls with
        | true => exact absurd hx hn
        | false => rfl
      have hcell := chunk_no_nulls_cell (ca.chunks.getD 0 bvChunkDefault)
        id.extract.2 hnn
      unfold naiveBV BVChunk.cellVal
      rw [hc0, hcell]
      simp
  · rw [if_neg h1, denote_single]
    show (takeBinviewMulti ca ids).denote = _
    exact takeBinviewMulti_denote ca ids hwf hKI hv

/-- Denotation of the null-aware gather on any chunk layout: it is the
naive null-aware indexed take. -/
theorem take_binview_opt_denote (ca : BVCA) (ids : List ChunkId)
    (hwf : ca.wf = true) (hKI : keyInjOn ca.srcBuffers)
    (hv : ids.all (fun id => id.is_null || validBV ca id) = true) :
    (take_unchecked_binview_opt ca ids).denote
      = ids.map (naiveOptBV ca) := by
  unfold take_unchecked_binview_opt
  by_cases h1 : ca.chunks.length = 1
  · rw [if_pos h1]
    by_cases hn : (ca.chunks.getD 0 bvChunkDefault).has_nulls = true
    · rw [if_pos hn, denote_single]
      show BVChunk.denote ⟨ids.map _, _, some (ids.map _)⟩ = _
      rw [denote_map_chunk_some]
      apply List.map_congr_left
      intro id hid
      cases hnul : id.is_null with
      | true =>
        simp only [hnul, Bool.true_or, Bool.not_true]
        unfold naiveOptBV
        rw [hnul]
        simp
      | false =>
        have hval : validBV ca id = true := by
          have hall := (List.all_eq_true.mp hv) id hid
          rcases Bool.or_eq_true_iff.mp hall with hx | hx
          · rw [hnul] at hx; exact absurd hx (by simp)
          · exact hx
        obtain ⟨hc0, hi, _⟩ := validBV_one_chunk ca h1 id hval
        simp only [hnul, Bool.false_or]
        unfold naiveOptBV naiveBV BVChunk.cellVal
        rw [hnul, hc0]
        simp only [Bool.false_eq_true, if_false]
        cases hcell : (ca.chunks.getD 0 bvChunkDefault).is_null_unchecked
            id.extract.2 with
        | true => simp
        | false => simp
    · rw [if_neg hn, denote_single]
      show BVChunk.denote ⟨ids.map _, _, some (ids.map _)⟩ = _
      rw [denote_map_chunk_some]
      apply List.map_congr_left
      intro id hid
      cases hnul : id.is_null with
      | true =>
        simp only [hnul, Bool.not_true]
        unfold naiveOptBV
        rw [hnul]
        simp
      | false =>
        have hval : validBV ca id = true := by
          have hall := (List.all_eq_true.mp hv) id hid
          rcases Bool.or_eq_true_iff.mp hall with hx | hx
          · rw [hnul] at hx; exact absurd hx (by simp)
          · exact hx
        obtain ⟨hc0, hi, _⟩ := validBV_one_chunk ca h1 id hval
        have hnn : (ca.chunks.getD 0 bvChunkDefault).has_nulls = false := by
          cases hx : (ca.chunks.getD 0 bvChunkDefault).has_nulls with
          | true => exact absurd hx hn
          | false => rfl
        have hcell := chunk_no_nulls_cell (ca.chunks.getD 0 bvChunkDefault)
          id.extract.2 hnn
        simp only [hnul, Bool.not_false]
        unfold naiveOptBV naiveBV BVChunk.cellVal
        rw [hnul, hc0, hcell]
        simp
  · rw [if_neg h1, denote_single]
    show (takeBinviewOptMulti ca ids).denote = _
    exact takeBinviewOptMulti_denote ca ids hwf hKI hv

/-- Helper: all range positions read back the list itself. -/
theorem range_map_getD_self {β : Type} (l : List β) (d : β) :
    (List.range l.length).map (fun i => l.getD i d) = l := by
  apply List.ext_getElem
  · simp
  · intro k h1 h2
    simp only [List.getElem_map, List.getElem_range]
    rw [List.getD_eq_getElem?_getD, List.getElem?_eq_getElem h2]
    rfl

/-- Reading the flattened denotation of a view-encoded array at the
flattened position of a valid address gives the naive cell value. -/
theorem bv_flat_getD_of_valid (ca : BVCA) (id : ChunkId)
    (hv : validBV ca id = true) :
    ca.denote.getD (flatIdxBV ca id) none = naiveBV ca id := by
  cases id with
  | nullId => simp [validBV] at hv
  | pos c i =>
    simp only [validBV, Bool.and_eq_true, decide_eq_true_eq] at hv
    obtain ⟨hc, hi⟩ := hv
    have hc' : c < (ca.chunks.map BVChunk.denote).length := by simpa using hc
    have hgetD : (ca.chunks.map BVChunk.denote).getD c []
        = BVChunk.denote (ca.chunks.getD c bvChunkDefault) :=
      getD_map_of_lt BVChunk.denote ca.chunks c [] bvChunkDefault hc
    have hdlen : ∀ ch : BVChunk, (BVChunk.denote ch).length
        = ch.views.length := by
      intro ch
      simp [BVChunk.denote]
    have hi' : i < ((ca.chunks.map BVChunk.denote).getD c []).length := by
      rw [hgetD, hdlen]
      exact hi
    have hlen_eq : chunkLens (ca.chunks.map BVChunk.denote)
        = ca.chunks.map (fun ch => ch.views.length) := by
      unfold chunkLens
      rw [List.map_map]
      apply List.map_congr_left
      intro ch _
      exact hdlen ch
    have hmain := getD_flatChunks (ca.chunks.map BVChunk.denote) c i none
      hc' hi'
    unfold BVCA.denote flatIdxBV
    simp only [ChunkId.extract]
    rw [← hlen_eq]
    unfold flatChunks at hmain
    rw [hmain, hgetD]
    unfold naiveBV
    simp only [ChunkId.extract]
    unfold BVChunk.denote
    have hi2 : i < (List.range
        (ca.chunks.getD c bvChunkDefault).views.length).length := by
      simpa using hi
    rw [getD_map_of_lt (BVChunk.cellVal (ca.chunks.getD c bvChunkDefault))
      (List.range (ca.chunks.getD c bvChunkDefault).views.length) i none 0
      hi2]
    congr 1
    rw [List.getD_eq_getElem?_getD, List.getElem?_eq_getElem hi2]
    simp

/-- Identity address list starting at chunk c: every element of every
chunk, in original order, as decoded addresses. -/
def identityAddrsFrom (c : Nat) : List Nat → List ChunkId
  | [] => []
  | n :: rest => (List.range n).map (ChunkId.pos c)
      ++ identityAddrsFrom (c + 1) rest

/-- Identity address list over given chunk lengths. -/
def identityAddrs (lens : List Nat) : List ChunkId :=
  identityAddrsFrom 0 lens

/-- Per-chunk enumeration of an abstract cell function. -/
def cellsOf {γ : Type} (cell : Nat → Nat → γ) (c : Nat) :
    List Nat → List γ
  | [] => []
  | n :: rest => (List.range n).map (cell c) ++ cellsOf cell (c + 1) rest

/-- Mapping any cell function over the identity addresses enumerates the
cells chunk by chunk. -/
theorem identityAddrsFrom_map {γ : Type} (cell : Nat → Nat → γ) :
    ∀ (lens : List Nat) (c0 : Nat),
      (identityAddrsFrom c0 lens).map
          (fun id => cell id.extract.1 id.extract.2)
        = cellsOf cell c0 lens := by
  intro lens
  induction lens with
  | nil => intro c0; rfl
  | cons n rest ih =>
    intro c0
    simp only [identityAddrsFrom, cellsOf, List.map_append, List.map_map]
    rw [ih (c0 + 1)]
    congr 1

/-- Membership description of the identity addresses. -/
theorem identityAddrsFrom_mem :
    ∀ (lens : List Nat) (c0 : Nat) (id : ChunkId),
      id ∈ identityAddrsFrom c0 lens →
      ∃ k i, k < lens.length ∧ i < lens.getD k 0 ∧ id = .pos (c0 + k) i := by
  intro lens
  induction lens with
  | nil =>
    intro c0 id h
    simp [identityAddrsFrom] at h
  | cons n rest ih =>
    intro c0 id h
    simp only [identityAddrsFrom, List.mem_append] at h
    rcases h with h | h
    · obtain ⟨i, hi, rfl⟩ := List.mem_map.mp h
      have hi' : i < n := List.mem_range.mp hi
      exact ⟨0, i, by simp, by simpa using hi', by rw [Nat.add_zero]⟩
    · obtain ⟨k, i, hk, hi, rfl⟩ := ih (c0 + 1) id h
      refine ⟨k + 1, i, by simp; omega, by simpa using hi, ?_⟩
      rw [show c0 + (k + 1) = c0 + 1 + k from by omega]

/-- Enumerating the direct-read cell function over the chunk lengths
reproduces the flattened chunk list. -/
theorem cellsOf_getD_flat {β : Type} (d : β) :
    ∀ (chunks : List (List β)) (c0 : Nat) (big : List (List β)),
      (∀ k, k < chunks.length → big.getD (c0 + k) [] = chunks.getD k []) →
      cellsOf (fun c i => (big.getD c []).getD i d) c0
          (chunks.map List.length)
        = chunks.flatten := by
  intro chunks
  induction chunks with
  | nil =>
    intro c0 big h
    rfl
  | cons ch rest ih =>
    intro c0 big h
    simp only [List.map_cons, cellsOf, List.flatten_cons]
    congr 1
    · have hch : big.getD c0 [] = ch := by simpa using h 0 (by simp)
      have hcg : (List.range ch.length).map
          (fun i => (big.getD c0 []).getD i d)
          = (List.range ch.length).map (fun i => ch.getD i d) := by
        apply List.map_congr_left
        intro i _
        rw [hch]
      rw [hcg]
      exact range_map_getD_self ch d
    · apply ih (c0 + 1) big
      intro k hk
      have hh := h (k + 1) (by simp; omega)
      rw [show c0 + 1 + k = c0 + (k + 1) from by omega]
      simpa using hh

/-- Enumerating the cell-value function over the view counts reproduces
the flattened denotation. -/
theorem cellsOf_cellVal_flat :
    ∀ (chunks : List BVChunk) (c0 : Nat) (big : List BVChunk),
      (∀ k, k < chunks.length →
        big.getD (c0 + k) bvChunkDefault = chunks.getD k bvChunkDefault) →
      cellsOf (fun c i => (big.getD c bvChunkDefault).cellVal i) c0
          (chunks.map (fun ch => ch.views.length))
        = (chunks.map BVChunk.denote).flatten := by
  intro chunks
  induction chunks with
  | nil =>
    intro c0 big h
    rfl
  | cons ch rest ih =>
    intro c0 big h
    simp only [List.map_cons, cellsOf, List.flatten_cons]
    congr 1
    · have hch : big.getD c0 bvChunkDefault = ch := by
        simpa using h 0 (by simp)
      have hcg : (List.range ch.views.length).map
          (fun i => (big.getD c0 bvChunkDefault).cellVal i)
          = (List.range ch.views.length).map ch.cellVal := by
        apply List.map_congr_left
        intro i _
        rw [hch]
      rw [hcg]
      rfl
    · apply ih (c0 + 1) big
      intro k hk
      have hh := h (k + 1) (by simp; omega)
      rw [show c0 + 1 + k = c0 + (k + 1) from by omega]
      simpa using hh

/-- All identity addresses over the chunk lengths are valid for the chunk
list. -/
theorem identityAddrs_valid_prim {β : Type} (chunks : List (List β)) :
    (identityAddrs (chunkLens chunks)).all (validAddr chunks) = true := by
  rw [List.all_eq_true]
  intro id hid
  have hid' : id ∈ identityAddrsFrom 0 (chunkLens chunks) := hid
  obtain ⟨k, i, hk, hi, rfl⟩ :=
    identityAddrsFrom_mem (chunkLens chunks) 0 id hid'
  have hk' : k < chunks.length := by simpa [chunkLens] using hk
  have hi' : i < (chunks.getD k []).length := by
    have hrw : (chunkLens chunks).getD k 0 = (chunks.getD k []).length :=
      getD_map_of_lt List.length chunks k 0 [] hk'
    rw [hrw] at hi
    exact hi
  show validAddr chunks (.pos (0 + k) i) = true
  rw [Nat.zero_add]
  show (decide (k < chunks.length)
    && decide (i < (chunks.getD k []).length)) = true
  rw [Bool.and_eq_true]
  exact ⟨decide_eq_true hk', decide_eq_true hi'⟩

/-- All identity addresses over the view counts are valid for a
view-encoded array. -/
theorem identityAddrs_valid_bv (ca : BVCA) :
    (identityAddrs (ca.chunks.map (fun ch => ch.views.length))).all
      (validBV ca) = true := by
  rw [List.all_eq_true]
  intro id hid
  have hid' : id ∈ identityAddrsFrom 0
      (ca.chunks.map (fun ch => ch.views.length)) := hid
  obtain ⟨k, i, hk, hi, rfl⟩ :=
    identityAddrsFrom_mem (ca.chunks.map (fun ch => ch.views.length)) 0 id
      hid'
  have hk' : k < ca.chunks.length := by simpa using hk
  have hi' : i < (ca.chunks.getD k bvChunkDefault).views.length := by
    have hrw : (ca.chunks.map (fun ch => ch.views.length)).getD k 0
        = (ca.chunks.getD k bvChunkDefault).views.length :=
      getD_map_of_lt (fun ch => ch.views.length) ca.chunks k 0
        bvChunkDefault hk'
    rw [hrw] at hi
    exact hi
  show validBV ca (.pos (0 + k) i) = true
  rw [Nat.zero_add]
  show (decide (k < ca.chunks.length)
    && decide (i < (ca.chunks.getD k bvChunkDefault).views.length)) = true
  rw [Bool.and_eq_true]
  exact ⟨decide_eq_true hk', decide_eq_true hi'⟩

/-- The slice fast branch reads the same cell as the general branch at
any valid position. -/
theorem slices_cell_eq {α : Type} [Inhabited α] (ca : PrimCA α)
    (targets : List (List α)) (hds : ca.downcast_slices = some targets)
    (c i : Nat) (hc : c < ca.chunks.length)
    (hi : i < (ca.chunks.getD c []).length) :
    some ((targets.getD c []).getD i default)
      = (ca.chunks.getD c []).getD i none := by
  unfold PrimCA.downcast_slices at hds
  by_cases hall : ca.chunks.all (fun ch => ch.all Option.isSome) = true
  · rw [if_pos hall] at hds
    have htg : targets
        = ca.chunks.map (fun ch => ch.map (fun o => o.getD default)) := by
      injection hds.symm
    subst htg
    have h1 : (ca.chunks.map (fun ch =>
        ch.map (fun o => o.getD default))).getD c []
        = (ca.chunks.getD c []).map (fun o => o.getD default) :=
      getD_map_of_lt _ _ _ _ [] hc
    have h2 : ((ca.chunks.getD c []).map (fun o => o.getD default)).getD i
        default = ((ca.chunks.getD c []).getD i none).getD default :=
      getD_map_of_lt _ _ _ _ none hi
    have hmemch : ca.chunks.getD c [] ∈ ca.chunks := getD_mem_of_lt _ _ _ hc
    have hmemo : (ca.chunks.getD c []).getD i none ∈ ca.chunks.getD c [] :=
      getD_mem_of_lt _ _ _ hi
    have hsome : ((ca.chunks.getD c []).getD i none).isSome = true := by
      have hch := (List.all_eq_true.mp hall) _ hmemch
      exact (List.all_eq_true.mp hch) _ hmemo
    rw [h1, h2]
    cases ho : (ca.chunks.getD c []).getD i none with
    | none => rw [ho] at hsome; simp at hsome
    | some v => simp
  · rw [if_neg hall] at hds
    exact absurd hds (by simp)

/-- Both branches of the null-aware primitive gather read the same cells:
a null sentinel yields none, a valid address reads the source cell. -/
theorem takeOptChunkedUnchecked_chunks {α : Type} [Inhabited α]
    (ca : PrimCA α) (ids : List ChunkId)
    (h : ids.all (fun id => id.is_null || validAddr ca.chunks id) = true) :
    (takeOptChunkedUnchecked ca ids).chunks
      = [ids.map (fun id =>
          if id.is_null then none
          else (ca.chunks.getD id.extract.1 []).getD id.extract.2 none)] := by
  unfold takeOptChunkedUnchecked
  cases hds : ca.downcast_slices with
  | none => simp
  | some targets =>
    simp only []
    refine congrArg (fun x => [x]) ?_
    refine List.map_congr_left ?_
    intro id hid
    have hv := (List.all_eq_true.mp h) id hid
    cases hn : id.is_null with
    | true => simp [hn]
    | false =>
      rw [hn] at hv
      simp only [Bool.false_or] at hv
      simp only [hn, Bool.false_eq_true, if_false]
      cases id with
      | nullId => simp [ChunkId.is_null] at hn
      | pos c i =>
        simp only [validAddr, Bool.and_eq_true, decide_eq_true_eq] at hv
        exact slices_cell_eq ca targets hds c i hv.1 hv.2

/-- C2: for every source sequence and every address list interleaving
null sentinels with valid addresses, the null-aware gather equals the
naive indexed take over the flattened source with none at each sentinel
position, and an address pointing at an already-null source element also
yields none; stated for the fixed-width path and for the view-encoded
path (values observed through the denotation). -/
theorem c2_take_opt_eq_naive {α : Type} [Inhabited α] (ca : PrimCA α)
    (bca : BVCA) (ids jds : List ChunkId)
    (h1 : ids.all (fun id => id.is_null || validAddr ca.chunks id) = true)
    (h2 : jds.all (fun id => id.is_null || validBV bca id) = true)
    (h3 : bca.wf = true) (h4 : keyInjOn bca.srcBuffers) :
    (takeOptChunkedUnchecked ca ids).chunks
      = [ids.map (fun id => if id.is_null then none
          else ca.flat.getD (flatIdx ca.chunks id) none)]
    ∧ (take_unchecked_binview_opt bca jds).denote
      = jds.map (fun id => if id.is_null then none
          else bca.denote.getD (flatIdxBV bca id) none) := by
  constructor
  · rw [takeOptChunkedUnchecked_chunks ca ids h1]
    refine congrArg (fun x => [x]) ?_
    apply List.map_congr_left
    intro id hid
    have hv := (List.all_eq_true.mp h1) id hid
    cases hn : id.is_null with
    | true => simp [hn]
    | false =>
      rw [hn] at hv
      simp only [Bool.false_or] at hv
      simp only [hn, Bool.false_eq_true, if_false]
      exact (flat_getD_of_valid ca.chunks id none hv).symm
  · rw [take_binview_opt_denote bca jds h3 h4 h2]
    apply List.map_congr_left
    intro id hid
    have hv := (List.all_eq_true.mp h2) id hid
    unfold naiveOptBV
    cases hn : id.is_null with
    | true => simp [hn]
    | false =>
      rw [hn] at hv
      simp only [Bool.false_or] at hv
      simp only [hn, Bool.false_eq_true, if_false]
      exact (bv_flat_getD_of_valid bca id hv).symm

/-- Concrete shared buffers for witnesses. -/
def bufA : Buffer := ⟨10, List.range 20⟩

/-- Second concrete buffer. -/
def bufB : Buffer := ⟨11, List.range 25⟩

/-- Concrete first chunk: one long view into bufA, one inline view, with
a validity bitmap. -/
def bvChunk1 : BVChunk :=
  ⟨[⟨15, [], 0, 2⟩, ⟨3, [7, 8, 9], 0, 0⟩], [bufA], some [true, true]⟩

/-- Concrete second chunk: a long view into bufB and a long view into the
shared bufA, no validity bitmap. -/
def bvChunk2 : BVChunk :=
  ⟨[⟨13, [], 0, 5⟩, ⟨14, [], 1, 0⟩], [bufB, bufA], none⟩

/-- Concrete two-chunk view-encoded source. -/
def bvEx : BVCA := ⟨[bvChunk1, bvChunk2], .Ascending⟩

/-- Concrete single-chunk view-encoded source. -/
def bvEx1 : BVCA := ⟨[bvChunk1], .Ascending⟩

/-- Concrete null-aware address list for the two-chunk source. -/
def jdsEx : List ChunkId := [.nullId, .pos 0 0, .pos 1 1, .pos 0 1, .pos 1 0]

/-- Concrete null-free address list for the two-chunk source. -/
def idsBvEx : List ChunkId := [.pos 1 1, .pos 0 0, .pos 1 0, .pos 0 1]

instance (S : List Buffer) : Decidable (keyInjOn S) := by
  unfold keyInjOn
  infer_instance

/-- Witness for C2 at concrete sources and address lists with a sentinel
and a null source element. -/
theorem c2_take_opt_eq_naive_witness :
    (takeOptChunkedUnchecked caEx [ChunkId.nullId, ChunkId.pos 1 0,
        ChunkId.pos 0 1]).chunks
      = [[ChunkId.nullId, ChunkId.pos 1 0, ChunkId.pos 0 1].map
          (fun id => if id.is_null then none
            else caEx.flat.getD (flatIdx caEx.chunks id) none)]
    ∧ (take_unchecked_binview_opt bvEx jdsEx).denote
      = jdsEx.map (fun id => if id.is_null then none
          else bvEx.denote.getD (flatIdxBV bvEx id) none) :=
  c2_take_opt_eq_naive caEx bvEx
    [ChunkId.nullId, ChunkId.pos 1 0, ChunkId.pos 0 1] jdsEx
    (by decide) (by decide) (by decide) (by decide)

/-- C4: for a view-encoded source with exactly one chunk, the single-chunk
fast path (which reuses the source pool by reference and copies selected
views) is observably identical to the general multi-chunk dedup path
forced on the same input, for both the non-null and the null-aware entry
points: the denoted optional-value sequences coincide. -/
theorem c4_fast_path_equiv (ca : BVCA) (ids jds : List ChunkId)
    (sorted : IsSorted) (h1 : ca.chunks.length = 1) (hwf : ca.wf = true)
    (hKI : keyInjOn ca.srcBuffers)
    (hv : ids.all (validBV ca) = true)
    (hv2 : jds.all (fun id => id.is_null || validBV ca id) = true) :
    (take_unchecked_binview ca ids sorted).denote
        = (maybe_gc (takeBinviewMulti ca ids)).denote
    ∧ (take_unchecked_binview_opt ca jds).denote
        = (maybe_gc (takeBinviewOptMulti ca jds)).denote := by
  constructor
  · rw [take_binview_denote ca ids sorted hwf hKI hv]
    show _ = (takeBinviewMulti ca ids).denote
    rw [takeBinviewMulti_denote ca ids hwf hKI hv]
  · rw [take_binview_opt_denote ca jds hwf hKI hv2]
    show _ = (takeBinviewOptMulti ca jds).denote
    rw [takeBinviewOptMulti_denote ca jds hwf hKI hv2]

/-- Witness for C4 at a concrete single-chunk source. -/
theorem c4_fast_path_equiv_witness :
    (take_unchecked_binview bvEx1 [ChunkId.pos 0 1, ChunkId.pos 0 0]
        .Not).denote
      = (maybe_gc (takeBinviewMulti bvEx1
          [ChunkId.pos 0 1, ChunkId.pos 0 0])).denote
    ∧ (take_unchecked_binview_opt bvEx1
        [ChunkId.nullId, ChunkId.pos 0 0]).denote
      = (maybe_gc (takeBinviewOptMulti bvEx1
          [ChunkId.nullId, ChunkId.pos 0 0])).denote :=
  c4_fast_path_equiv bvEx1 [ChunkId.pos 0 1, ChunkId.pos 0 0]
    [ChunkId.nullId, ChunkId.pos 0 0] .Not (by decide) (by decide)
    (by decide) (by decide) (by decide)

/-- C8: gathering with the identity address list (every element of every
chunk, in original order) reproduces the original sequence exactly
(flattened values for the fixed-width path, denotation for the
view-encoded path) including the sortedness flag, the hint being
Ascending since the identity address pattern preserves order. -/
theorem c8_identity_gather {α : Type} [Inhabited α] (ca : PrimCA α)
    (bca : BVCA) (hwf : bca.wf = true) (hKI : keyInjOn bca.srcBuffers) :
    ((takeChunkedUnchecked ca (identityAddrs (chunkLens ca.chunks))
        .Ascending).flat = ca.flat
      ∧ (takeChunkedUnchecked ca (identityAddrs (chunkLens ca.chunks))
          .Ascending).sortedFlag = ca.sortedFlag)
    ∧ ((take_unchecked_binview bca
          (identityAddrs (bca.chunks.map (fun ch => ch.views.length)))
          .Ascending).denote = bca.denote
      ∧ (take_unchecked_binview bca
          (identityAddrs (bca.chunks.map (fun ch => ch.views.length)))
          .Ascending).sortedFlag = bca.sortedFlag) := by
  refine ⟨⟨?_, ?_⟩, ?_, ?_⟩
  · have hc := takeChunkedUnchecked_chunks ca
      (identityAddrs (chunkLens ca.chunks)) .Ascending
      (identityAddrs_valid_prim ca.chunks)
    unfold PrimCA.flat
    rw [hc]
    show flatChunks [(identityAddrs (chunkLens ca.chunks)).map
      (fun id => (ca.chunks.getD id.extract.1 []).getD id.extract.2 none)]
      = flatChunks ca.chunks
    have hmap := identityAddrsFrom_map
      (fun c i => (ca.chunks.getD c []).getD i none) (chunkLens ca.chunks) 0
    have hflat := cellsOf_getD_flat none ca.chunks 0 ca.chunks
      (fun k _ => by rw [Nat.zero_add])
    unfold identityAddrs chunkLens
    unfold identityAddrs at hmap
    unfold chunkLens at hmap hflat
    rw [hmap, hflat]
    simp [flatChunks]
  · show updateGatherSortedFlag ca.sortedFlag .Ascending = ca.sortedFlag
    cases ca.sortedFlag <;> rfl
  · rw [take_binview_denote bca
      (identityAddrs (bca.chunks.map (fun ch => ch.views.length)))
      .Ascending hwf hKI (identityAddrs_valid_bv bca)]
    have hmap := identityAddrsFrom_map
      (fun c i => (bca.chunks.getD c bvChunkDefault).cellVal i)
      (bca.chunks.map (fun ch => ch.views.length)) 0
    have hflat := cellsOf_cellVal_flat bca.chunks 0 bca.chunks
      (fun k _ => by rw [Nat.zero_add])
    unfold identityAddrs at hmap ⊢
    show (identityAddrsFrom 0 (bca.chunks.map
        (fun ch => ch.views.length))).map
      (fun id => (bca.chunks.getD id.extract.1 bvChunkDefault).cellVal
        id.extract.2) = bca.denote
    rw [hmap, hflat]
    rfl
  · unfold take_unchecked_binview
    by_cases h1 : bca.chunks.length = 1
    · rw [if_pos h1]
      by_cases hn : (bca.chunks.getD 0 bvChunkDefault).has_nulls = true
      · rw [if_pos hn]
        show updateGatherSortedFlag bca.sortedFlag .Ascending
          = bca.sortedFlag
        cases bca.sortedFlag <;> rfl
      · rw [if_neg hn]
        show updateGatherSortedFlag bca.sortedFlag .Ascending
          = bca.sortedFlag
        cases bca.sortedFlag <;> rfl
    · rw [if_neg h1]
      show updateGatherSortedFlag bca.sortedFlag .Ascending = bca.sortedFlag
      cases bca.sortedFlag <;> rfl

/-- Witness for C8 at concrete multi-chunk sources. -/
theorem c8_identity_gather_witness :
    ((takeChunkedUnchecked caEx (identityAddrs (chunkLens caEx.chunks))
        .Ascending).flat = caEx.flat
      ∧ (takeChunkedUnchecked caEx (identityAddrs (chunkLens caEx.chunks))
          .Ascending).sortedFlag = caEx.sortedFlag)
    ∧ ((take_unchecked_binview bvEx
          (identityAddrs (bvEx.chunks.map (fun ch => ch.views.length)))
          .Ascending).denote = bvEx.denote
      ∧ (take_unchecked_binview bvEx
          (identityAddrs (bvEx.chunks.map (fun ch => ch.views.length)))
          .Ascending).sortedFlag = bvEx.sortedFlag) :=
  c8_identity_gather caEx bvEx (by decide) (by decide)

/-- A null cell implies the chunk has nulls. -/
theorem is_null_imp_chunk_has_nulls (ch : BVChunk) (i : Nat)
    (h : ch.is_null_unchecked i = true) : ch.has_nulls = true := by
  unfold BVChunk.is_null_unchecked at h
  unfold BVChunk.has_nulls
  cases hv : ch.validity with
  | none =>
    rw [hv] at h
    exact absurd h (by simp)
  | some v =>
    rw [hv] at h
    have h' : (!v.getD i true) = true := h
    show v.contains false = true
    have hgd : v.getD i true = false := by
      cases hx : v.getD i true with
      | false => rfl
      | true => rw [hx] at h'; simp at h'
    by_cases hi : i < v.length
    · have hmem : v.getD i true ∈ v := getD_mem_of_lt _ _ _ hi
      rw [hgd] at hmem
      simpa using hmem
    · rw [List.getD_eq_default _ _ (by omega)] at hgd
      simp at hgd

/-- A chunk with nulls makes the whole array report nulls. -/
theorem chunk_has_nulls_imp_ca (ca : BVCA) (c : Nat)
    (hc : c < ca.chunks.length)
    (h : (ca.chunks.getD c bvChunkDefault).has_nulls = true) :
    ca.has_nulls = true := by
  unfold BVCA.has_nulls
  rw [List.any_eq_true]
  exact ⟨_, getD_mem_of_lt _ _ _ hc, h⟩

/-- C9: the non-null-sentinel entry point preserves source nulls: where
a valid address points at a source element whose validity bit is false,
the fixed-width gather emits a null output element and the view-encoded
gather emits the zeroed placeholder descriptor with a false validity
bit. -/
theorem c9_take_preserves_source_nulls {α : Type} [Inhabited α]
    (ca : PrimCA α) (bca : BVCA) (ids jds : List ChunkId)
    (sorted : IsSorted)
    (h1 : ids.all (validAddr ca.chunks) = true)
    (h2 : jds.all (validBV bca) = true)
    (hwf : bca.wf = true) (hKI : keyInjOn bca.srcBuffers)
    (k l : Nat) (hk : k < ids.length) (hl : l < jds.length)
    (hnullp : (ca.chunks.getD (ids.getD k .nullId).extract.1 []).getD
        (ids.getD k .nullId).extract.2 none = none)
    (hnullb : (bca.chunks.getD (jds.getD l .nullId).extract.1
        bvChunkDefault).is_null_unchecked
        (jds.getD l .nullId).extract.2 = true) :
    ((takeChunkedUnchecked ca ids sorted).chunks.getD 0 []).getD k none
        = none
    ∧ ∀ ch, (take_unchecked_binview bca jds sorted).chunks = [ch] →
        ch.views.getD l viewDefault = viewDefault
        ∧ ch.is_null_unchecked l = true := by
  constructor
  · rw [takeChunkedUnchecked_chunks ca ids sorted h1]
    show (ids.map (fun id =>
      (ca.chunks.getD id.extract.1 []).getD id.extract.2 none)).getD k none
      = none
    rw [getD_map_of_lt _ ids k none .nullId hk]
    exact hnullp
  · intro ch hch
    have hvl : validBV bca (jds.getD l .nullId) = true :=
      (List.all_eq_true.mp h2) _ (getD_mem_of_lt jds l ChunkId.nullId hl)
    unfold take_unchecked_binview at hch
    by_cases h1c : bca.chunks.length = 1
    · rw [if_pos h1c] at hch
      obtain ⟨hc0, hi, _⟩ := validBV_one_chunk bca h1c _ hvl
      rw [hc0] at hnullb
      by_cases hn : (bca.chunks.getD 0 bvChunkDefault).has_nulls = true
      · rw [if_pos hn] at hch
        injection hch with hch2
        subst hch2
        constructor
        · show ((jds.map (fun id =>
            if (bca.chunks.getD 0 bvChunkDefault).is_null_unchecked
                id.extract.2 then viewDefault
            else (bca.chunks.getD 0 bvChunkDefault).views.getD id.extract.2
              viewDefault)).getD l viewDefault) = viewDefault
          rw [getD_map_of_lt _ jds l viewDefault .nullId hl]
          rw [hnullb]
          rfl
        · show (!((jds.map (fun id =>
            !((bca.chunks.getD 0 bvChunkDefault).is_null_unchecked
              id.extract.2))).getD l true)) = true
          rw [getD_map_of_lt _ jds l true .nullId hl]
          rw [hnullb]
          rfl
      · exfalso
        exact hn (is_null_imp_chunk_has_nulls _ _ hnullb)
    · rw [if_neg h1c] at hch
      injection hch with hch2
      subst hch2
      have hcval : (jds.getD l .nullId).extract.1 < bca.chunks.length := by
        cases hjl : jds.getD l .nullId with
        | nullId => rw [hjl] at hvl; simp [validBV] at hvl
        | pos c i =>
          rw [hjl] at hvl
          simp only [validBV, Bool.and_eq_true, decide_eq_true_eq] at hvl
          simpa using hvl.1
      have hcan : bca.has_nulls = true :=
        chunk_has_nulls_imp_ca bca _ hcval
          (is_null_imp_chunk_has_nulls _ _ hnullb)
      unfold takeBinviewMulti
      rw [if_pos hcan]
      have hitem : gatherItemTakeNulls bca (jds.getD l .nullId) = none := by
        show (if (bca.chunks.getD (jds.getD l .nullId).extract.1
            bvChunkDefault).is_null_unchecked
            (jds.getD l .nullId).extract.2 = true then none
          else some ((bca.chunks.getD (jds.getD l .nullId).extract.1
              bvChunkDefault).views.getD (jds.getD l .nullId).extract.2
              viewDefault,
            (bca.chunks.getD (jds.getD l .nullId).extract.1
              bvChunkDefault).buffers)) = none
        rw [if_pos hnullb]
      have hids : ∀ id ∈ jds, ∀ vb,
          gatherItemTakeNulls bca id = some vb → 12 < vb.1.length →
          refBuf vb ∈ bca.srcBuffers := by
        intro id hid vb hvb hlong
        exact item_refBuf_mem bca hwf id ((List.all_eq_true.mp h2) id hid)
          vb (item_some_shape bca id vb (Or.inl hvb)) hlong
      obtain ⟨hpool, hemit, hrefd⟩ :=
        gatherLoop_spec (gatherItemTakeNulls bca) bca.srcBuffers jds hKI
          hids
      rcases hst : jds.foldl (genStep (gatherItemTakeNulls bca))
        ([], [], [], []) with ⟨vs, vd, m, bs⟩
      simp only [hst] at hemit
      obtain ⟨hvslen, hvdlen, hall⟩ := hemit
      have hat := hall l hl
      unfold emitAt at hat
      rw [hitem] at hat
      obtain ⟨hview, hbit⟩ := hat
      constructor
      · show vs.getD l viewDefault = viewDefault
        exact hview
      · show (!(vd.getD l true)) = true
        rw [hbit]
        rfl

/-- Concrete chunk with a null element for witnesses. -/
def bvChunkN : BVChunk :=
  ⟨[⟨15, [], 0, 2⟩, ⟨0, [], 0, 0⟩], [bufA], some [true, false]⟩

/-- Concrete two-chunk source with a null element. -/
def bvExN : BVCA := ⟨[bvChunkN, bvChunk2], .Not⟩

/-- Witness for C9 at concrete sources whose addressed elements are
null. -/
theorem c9_take_preserves_source_nulls_witness :
    ((takeChunkedUnchecked caEx idsEx .Not).chunks.getD 0 []).getD 2 none
        = none
    ∧ ((take_unchecked_binview bvExN [ChunkId.pos 0 1, ChunkId.pos 1 0]
        .Not).chunks.getD 0 bvChunkDefault).views.getD 0 viewDefault
        = viewDefault
    ∧ ((take_unchecked_binview bvExN [ChunkId.pos 0 1, ChunkId.pos 1 0]
        .Not).chunks.getD 0 bvChunkDefault).is_null_unchecked 0 = true :=
  have hmain := c9_take_preserves_source_nulls caEx bvExN idsEx
    [ChunkId.pos 0 1, ChunkId.pos 1 0] .Not (by decide) (by decide)
    (by decide) (by decide) 2 0 (by decide) (by decide) (by decide)
    (by decide)
  ⟨hmain.1, (hmain.2 _ (by decide)).1, (hmain.2 _ (by decide)).2⟩

/-- C10: the null-aware entry points take no sortedness hint and never
propagate the source flag: the output always carries the default
Not-sorted flag, in particular differing from an Ascending source. -/
theorem c10_opt_default_not_sorted {α : Type} [Inhabited α]
    (ca : PrimCA α) (bca : BVCA) (ids : List ChunkId) :
    (takeOptChunkedUnchecked ca ids).sortedFlag = .Not
    ∧ (take_unchecked_binview_opt bca ids).sortedFlag = .Not
    ∧ (ca.sortedFlag = .Ascending →
        (takeOptChunkedUnchecked ca ids).sortedFlag ≠ ca.sortedFlag) := by
  refine ⟨rfl, ?_, ?_⟩
  · unfold take_unchecked_binview_opt
    by_cases h : bca.chunks.length = 1
    · rw [if_pos h]
      by_cases hn : (bca.chunks.getD 0 bvChunkDefault).has_nulls = true
      · rw [if_pos hn]
      · rw [if_neg hn]
    · rw [if_neg h]
  · intro ha
    have hflag : (takeOptChunkedUnchecked ca ids).sortedFlag = .Not := rfl
    rw [hflag, ha]
    decide

/-- Witness for C10: an Ascending source loses its flag through the
null-aware gather. -/
theorem c10_opt_default_not_sorted_witness :
    (takeOptChunkedUnchecked caEx idsEx).sortedFlag ≠ caEx.sortedFlag :=
  (c10_opt_default_not_sorted caEx bvEx idsEx).2.2 rfl

/-- Source chunk addressed by a decoded address. -/
def srcChunkOf (ca : BVCA) (id : ChunkId) : BVChunk :=
  ca.chunks.getD id.extract.1 bvChunkDefault

/-- Source view descriptor addressed by a decoded address. -/
def srcViewOf (ca : BVCA) (id : ChunkId) : View :=
  (srcChunkOf ca id).views.getD id.extract.2 viewDefault

/-- Source buffer referenced by the addressed view descriptor. -/
def srcBufOf (ca : BVCA) (id : ChunkId) : Buffer :=
  (srcChunkOf ca id).buffers.getD (srcViewOf ca id).buffer_idx bufferDefault

/-- C3: after a multi-chunk gather of a view-encoded sequence, the
produced chunk's buffer pool carries pairwise distinct (identity, length)
keys, every pool buffer is referenced by at least one emitted descriptor
above the 12-byte inline threshold, and per position: a null source
element emits the placeholder, a descriptor at or below the threshold is
copied untouched, and a descriptor above the threshold keeps its length,
offset and inline prefix and has its buffer index rewritten to a pool
entry equal to the referenced source buffer. -/
theorem c3_buffer_pool_exact (ca : BVCA) (ids : List ChunkId)
    (sorted : IsSorted) (hmc : ¬ca.chunks.length = 1) (hwf : ca.wf = true)
    (hKI : keyInjOn ca.srcBuffers) (hv : ids.all (validBV ca) = true) :
    ∀ ch, (take_unchecked_binview ca ids sorted).chunks = [ch] →
      (ch.buffers.map bufKey).Nodup
      ∧ (∀ j, j < ch.buffers.length → ∃ k, k < ch.views.length
          ∧ 12 < (ch.views.getD k viewDefault).length
          ∧ (ch.views.getD k viewDefault).buffer_idx = j)
      ∧ (∀ k, k < ids.length →
          ((srcChunkOf ca (ids.getD k .nullId)).is_null_unchecked
              (ids.getD k .nullId).extract.2 = true →
            ch.views.getD k viewDefault = viewDefault)
          ∧ ((srcChunkOf ca (ids.getD k .nullId)).is_null_unchecked
              (ids.getD k .nullId).extract.2 = false →
            ((srcViewOf ca (ids.getD k .nullId)).length ≤ 12 →
              ch.views.getD k viewDefault
                = srcViewOf ca (ids.getD k .nullId))
            ∧ (12 < (srcViewOf ca (ids.getD k .nullId)).length →
              (ch.views.getD k viewDefault).length
                  = (srcViewOf ca (ids.getD k .nullId)).length
              ∧ (ch.views.getD k viewDefault).offset
                  = (srcViewOf ca (ids.getD k .nullId)).offset
              ∧ (ch.views.getD k viewDefault).inlineData
                  = (srcViewOf ca (ids.getD k .nullId)).inlineData
              ∧ (ch.views.getD k viewDefault).buffer_idx < ch.buffers.length
              ∧ ch.buffers.getD (ch.views.getD k viewDefault).buffer_idx
                  bufferDefault = srcBufOf ca (ids.getD k .nullId)))) := by
  intro ch hch
  unfold take_unchecked_binview at hch
  rw [if_neg hmc] at hch
  injection hch with hch2
  have hcheq : ch = takeBinviewMulti ca ids := hch2.symm
  subst hcheq
  by_cases hn : ca.has_nulls = true
  · have hids : ∀ id ∈ ids, ∀ vb, gatherItemTakeNulls ca id = some vb →
        12 < vb.1.length → refBuf vb ∈ ca.srcBuffers := by
      intro id hid vb hvb hlong
      exact item_refBuf_mem ca hwf id ((List.all_eq_true.mp hv) id hid) vb
        (item_some_shape ca id vb (Or.inl hvb)) hlong
    obtain ⟨hpool, hemit, hrefd⟩ :=
      gatherLoop_spec (gatherItemTakeNulls ca) ca.srcBuffers ids hKI hids
    rcases hst : ids.foldl (genStep (gatherItemTakeNulls ca)) ([], [], [], [])
      with ⟨vs, vd, m, bs⟩
    simp only [hst] at hpool hemit hrefd
    have hbuild : takeBinviewMulti ca ids = ⟨vs, bs, some vd⟩ := by
      unfold takeBinviewMulti
      rw [if_pos hn]
      show (⟨(ids.foldl (genStep (gatherItemTakeNulls ca))
          ([], [], [], [])).1,
        (ids.foldl (genStep (gatherItemTakeNulls ca))
          ([], [], [], [])).2.2.2,
        some (ids.foldl (genStep (gatherItemTakeNulls ca))
          ([], [], [], [])).2.1⟩ : BVChunk) = ⟨vs, bs, some vd⟩
      rw [hst]
    rw [hbuild]
    obtain ⟨hvslen, hvdlen, hall⟩ := hemit
    refine ⟨hpool.2.1, hrefd, ?_⟩
    intro k hk
    have hat := hall k hk
    unfold emitAt at hat
    cases hsrc : (srcChunkOf ca (ids.getD k .nullId)).is_null_unchecked
        (ids.getD k .nullId).extract.2 with
    | true =>
      have hitem : gatherItemTakeNulls ca (ids.getD k .nullId) = none := by
        show (if (srcChunkOf ca (ids.getD k .nullId)).is_null_unchecked
            (ids.getD k .nullId).extract.2 = true then none
          else some (srcViewOf ca (ids.getD k .nullId),
            (srcChunkOf ca (ids.getD k .nullId)).buffers)) = none
        rw [if_pos hsrc]
      rw [hitem] at hat
      exact ⟨fun _ => hat.1, fun hfalse => absurd hfalse (by simp)⟩
    | false =>
      have hitem : gatherItemTakeNulls ca (ids.getD k .nullId)
          = some (srcViewOf ca (ids.getD k .nullId),
            (srcChunkOf ca (ids.getD k .nullId)).buffers) := by
        show (if (srcChunkOf ca (ids.getD k .nullId)).is_null_unchecked
            (ids.getD k .nullId).extract.2 = true then none
          else some (srcViewOf ca (ids.getD k .nullId),
            (srcChunkOf ca (ids.getD k .nullId)).buffers)) = _
        rw [if_neg (by rw [hsrc]; simp)]
      rw [hitem] at hat
      obtain ⟨hb, hl, hi, ho, hs, hlong⟩ := hat
      refine ⟨fun htrue => absurd htrue (by simp), fun _ => ⟨hs, ?_⟩⟩
      intro h12
      obtain ⟨hidx, hbuf⟩ := hlong h12
      exact ⟨hl, ho, hi, hidx, hbuf⟩
  · have hnn : ca.has_nulls = false := by
      cases hx : ca.has_nulls with
      | true => exact absurd hx hn
      | false => rfl
    have hids : ∀ id ∈ ids, ∀ vb, gatherItemTakeNoNulls ca id = some vb →
        12 < vb.1.length → refBuf vb ∈ ca.srcBuffers := by
      intro id hid vb hvb hlong
      exact item_refBuf_mem ca hwf id ((List.all_eq_true.mp hv) id hid) vb
        (item_some_shape ca id vb (Or.inr (Or.inl hvb))) hlong
    obtain ⟨hpool, hemit, hrefd⟩ :=
      gatherLoop_spec (gatherItemTakeNoNulls ca) ca.srcBuffers ids hKI hids
    rcases hst : ids.foldl (genStep (gatherItemTakeNoNulls ca))
      ([], [], [], []) with ⟨vs, vd, m, bs⟩
    simp only [hst] at hpool hemit hrefd
    have hbuild : takeBinviewMulti ca ids = ⟨vs, bs, none⟩ := by
      unfold takeBinviewMulti
      rw [if_neg hn]
      show (⟨(ids.foldl (genStep (gatherItemTakeNoNulls ca))
          ([], [], [], [])).1,
        (ids.foldl (genStep (gatherItemTakeNoNulls ca))
          ([], [], [], [])).2.2.2, none⟩ : BVChunk) = ⟨vs, bs, none⟩
      rw [hst]
    rw [hbuild]
    obtain ⟨hvslen, hvdlen, hall⟩ := hemit
    refine ⟨hpool.2.1, hrefd, ?_⟩
    intro k hk
    have hvk : validBV ca (ids.getD k .nullId) = true :=
      (List.all_eq_true.mp hv) _ (getD_mem_of_lt ids k ChunkId.nullId hk)
    have hcv : (ids.getD k .nullId).extract.1 < ca.chunks.length := by
      cases hjl : ids.getD k .nullId with
      | nullId => rw [hjl] at hvk; simp [validBV] at hvk
      | pos c i =>
        rw [hjl] at hvk
        simp only [validBV, Bool.and_eq_true, decide_eq_true_eq] at hvk
        simpa using hvk.1
    have hchn : (srcChunkOf ca (ids.getD k .nullId)).has_nulls = false := by
      unfold BVCA.has_nulls at hnn
      have hh := List.any_eq_false.mp hnn _
        (getD_mem_of_lt ca.chunks _ bvChunkDefault hcv)
      simpa [srcChunkOf] using hh
    have hsrc := chunk_no_nulls_cell (srcChunkOf ca (ids.getD k .nullId))
      (ids.getD k .nullId).extract.2 hchn
    have hat := hall k hk
    unfold emitAt at hat
    have hitem : gatherItemTakeNoNulls ca (ids.getD k .nullId)
        = some (srcViewOf ca (ids.getD k .nullId),
          (srcChunkOf ca (ids.getD k .nullId)).buffers) := rfl
    rw [hitem] at hat
    obtain ⟨hb, hl, hi, ho, hs, hlong⟩ := hat
    refine ⟨fun htrue => absurd htrue (by rw [hsrc]; simp),
      fun _ => ⟨hs, ?_⟩⟩
    intro h12
    obtain ⟨hidx, hbuf⟩ := hlong h12
    exact ⟨hl, ho, hi, hidx, hbuf⟩

/-- Concrete output chunk of a multi-chunk gather for the C3 witness. -/
def chEx : BVChunk :=
  (take_unchecked_binview bvEx idsBvEx .Not).chunks.getD 0 bvChunkDefault

/-- Witness for C3 at a concrete two-chunk source: distinct pool keys, an
untouched inline descriptor, and a rewritten long descriptor addressing
the referenced source buffer. -/
theorem c3_buffer_pool_exact_witness :
    (chEx.buffers.map bufKey).Nodup
    ∧ chEx.views.getD 3 viewDefault = srcViewOf bvEx (idsBvEx.getD 3 .nullId)
    ∧ chEx.buffers.getD (chEx.views.getD 0 viewDefault).buffer_idx
        bufferDefault = srcBufOf bvEx (idsBvEx.getD 0 .nullId) :=
  have h := c3_buffer_pool_exact bvEx idsBvEx .Not (by decide) (by decide)
    (by decide) (by decide) chEx (by decide)
  ⟨h.1, ((h.2.2 3 (by decide)).2 (by decide)).1 (by decide),
    (((h.2.2 0 (by decide)).2 (by decide)).2 (by decide)).2.2.2.2⟩

/-- Mini series universe for the structural dispatcher: fixed-width,
view-encoded, and struct-of-fields.  Models the physical dispatch arms of
the Series entry points (source lines 139-185 and 193-239); a struct is a
nested dtype, kept unconverted by `prepare_series`, and its arm gathers
every child field with the same address list (`_apply_fields`
collaborator of `polars-core`, modelled from the spec: struct-of-gather =
gather-of-each-field). -/
inductive SeriesT where
  | prim : PrimCA Int → SeriesT
  | binview : BVCA → SeriesT
  | strct : List SeriesT → SeriesT

/-- Embeds the non-null Series dispatch (source lines 132-187) on the
mini universe. -/
def SeriesT.takeChunked : SeriesT → List ChunkId → IsSorted → SeriesT
  | .prim ca, ids, sorted => .prim (takeChunkedUnchecked ca ids sorted)
  | .binview ca, ids, sorted =>
      .binview (take_unchecked_binview ca ids sorted)
  | .strct fields, ids, sorted =>
      .strct (fields.attach.map (fun f => SeriesT.takeChunked f.1 ids sorted))
termination_by s _ _ => sizeOf s
decreasing_by
  simp_wf
  have := List.sizeOf_lt_of_mem f.2
  omega

/-- Embeds the null-aware Series dispatch (source lines 190-241) on the
mini universe. -/
def SeriesT.takeOptChunked : SeriesT → List ChunkId → SeriesT
  | .prim ca, ids => .prim (takeOptChunkedUnchecked ca ids)
  | .binview ca, ids => .binview (take_unchecked_binview_opt ca ids)
  | .strct fields, ids =>
      .strct (fields.attach.map (fun f => SeriesT.takeOptChunked f.1 ids))
termination_by s _ => sizeOf s
decreasing_by
  simp_wf
  have := List.sizeOf_lt_of_mem f.2
  omega

/-- C7: gathering a struct equals gathering each child field
independently with the same address list and reassembling the struct from
the gathered fields, for both the non-null and the null-aware entry
points; field count and order are preserved and the k-th gathered field
is the gather of the k-th source field. -/
theorem c7_struct_gather_fieldwise (fields : List SeriesT)
    (ids : List ChunkId) (sorted : IsSorted) :
    SeriesT.takeChunked (.strct fields) ids sorted
        = .strct (fields.map (fun f => f.takeChunked ids sorted))
    ∧ SeriesT.takeOptChunked (.strct fields) ids
        = .strct (fields.map (fun f => f.takeOptChunked ids))
    ∧ (∀ k, ∀ hk : k < fields.length,
        (fields.map (fun f => f.takeChunked ids sorted)).get
            ⟨k, by simpa using hk⟩
          = (fields.get ⟨k, hk⟩).takeChunked ids sorted) := by
  refine ⟨?_, ?_, ?_⟩
  · simp only [SeriesT.takeChunked]
    rw [List.attach_map_coe fields (fun f => f.takeChunked ids sorted)]
  · simp only [SeriesT.takeOptChunked]
    rw [List.attach_map_coe fields (fun f => f.takeOptChunked ids)]
  · intro k hk
    rw [List.get_eq_getElem, List.get_eq_getElem, List.getElem_map]

/-- Witness for C7: the reassembled gathered struct field at a concrete
index is the gather of that field. -/
theorem c7_struct_gather_fieldwise_witness :
    ([SeriesT.prim caEx].map (fun f => f.takeChunked idsEx .Not)).get
        ⟨0, by decide⟩
      = (([SeriesT.prim caEx]).get ⟨0, by decide⟩).takeChunked idsEx .Not :=
  (c7_struct_gather_fieldwise [SeriesT.prim caEx] idsEx .Not).2.2 0
    (by decide)
